import Mathlib

/-!
# Verification of the elabs cryptographic identity subsystem

This file gives a shallow embedding, in Lean 4, of the cryptographic code of
the `elabs` repository (`elabs-k256`, `elabs-crypto`): Keccak-256 hashing,
secp256k1 key material, EIP-55 checksum addresses, and recoverable ECDSA
signatures, together with theorems checking the repository's specification
against the embedded code.

Machine integers (`u8`, `u64`, 256-bit field elements) are modelled as `Nat`
with explicit `% 2^w` / `% p` reductions; byte buffers as `List Nat`; Rust
strings as `List Char`; fallible operations return `Except`/`Option`, with an
outer `Option` whose `none` marks a reachable Rust `panic` (`unwrap` on `Err`).
The external `secp256k1` C library, which the repository calls but does not
contain, is modelled by executable elliptic-curve arithmetic parameterised by
the curve constants; the generic theorems about it are instantiated both at
the real secp256k1 parameters and, for fully computed witnesses, at a small
test curve.
-/

namespace Elabs

/-! ## Byte-level utilities -/

/-- Big-endian interpretation of a byte string as a natural number. -/
def bytesToNatBE (bs : List Nat) : Nat :=
  bs.foldl (fun acc b => acc * 256 + b) 0

/-- Big-endian serialization of a natural number into exactly `len` bytes
(the value is taken modulo `256 ^ len`). -/
def natToBytesBE (len x : Nat) : List Nat :=
  match len with
  | 0 => []
  | l + 1 => natToBytesBE l (x / 256) ++ [x % 256]

/-- 64-bit left rotation. -/
def rotl64 (x n : Nat) : Nat :=
  ((x <<< n) ||| (x >>> (64 - n))) % 2 ^ 64

/-- 64-bit complement. -/
def not64 (x : Nat) : Nat := x ^^^ (2 ^ 64 - 1)

/-! ## Keccak-256 (the legacy pre-NIST padding, as implemented by
`tiny_keccak::Keccak::v256`, which both crates call). The state is a list of
25 lanes of 64 bits, lane `i` holding coordinates `(x, y)` with
`i = x + 5 * y`. -/

/-- Lane access in a Keccak state (out-of-range reads as 0). -/
def lane (s : List Nat) (i : Nat) : Nat := s.getD i 0

/-- Column parity for the θ step. -/
def thetaC (s : List Nat) (x : Nat) : Nat :=
  lane s x ^^^ lane s (x + 5) ^^^ lane s (x + 10) ^^^ lane s (x + 15) ^^^ lane s (x + 20)

/-- The θ step of the Keccak round function. -/
def theta (s : List Nat) : List Nat :=
  (List.range 25).map fun i =>
    lane s i ^^^ (thetaC s ((i % 5 + 4) % 5) ^^^ rotl64 (thetaC s ((i % 5 + 1) % 5)) 1)

/-- Rotation offsets for the ρ step, indexed by lane. -/
def rotOff (i : Nat) : Nat :=
  ([0, 1, 62, 28, 27, 36, 44, 6, 55, 20, 3, 10] ++
   [43, 25, 39, 41, 45, 15, 21, 8, 18, 2, 61, 56, 14]).getD i 0

/-- The combined ρ and π steps: lane `(x, y)` is rotated by its offset and
moved to position `(y, 2x + 3y)`. -/
def rhoPi (s : List Nat) : List Nat :=
  (List.range 25).foldl
    (fun b i =>
      b.set (i / 5 + 5 * ((2 * (i % 5) + 3 * (i / 5)) % 5)) (rotl64 (lane s i) (rotOff i)))
    (List.replicate 25 0)

/-- The χ step of the Keccak round function. -/
def chi (s : List Nat) : List Nat :=
  (List.range 25).map fun i =>
    lane s i ^^^ (not64 (lane s ((i % 5 + 1) % 5 + 5 * (i / 5))) &&&
      lane s ((i % 5 + 2) % 5 + 5 * (i / 5)))

/-- Round constants for the ι step. -/
def keccakRC : List Nat :=
  [0x0000000000000001, 0x0000000000008082, 0x800000000000808a, 0x8000000080008000,
   0x000000000000808b, 0x0000000080000001, 0x8000000080008081, 0x8000000000008009,
   0x000000000000008a, 0x0000000000000088, 0x0000000080008009, 0x000000008000000a,
   0x000000008000808b, 0x800000000000008b, 0x8000000000008089, 0x8000000000008003,
   0x8000000000008002, 0x8000000000000080, 0x000000000000800a, 0x800000008000000a,
   0x8000000080008081, 0x8000000000008080, 0x0000000080000001, 0x8000000080008008]

/-- One Keccak round: θ, ρ, π, χ, then ι with round constant `rc`. -/
def keccakRound (s : List Nat) (rc : Nat) : List Nat :=
  let t := chi (rhoPi (theta s))
  t.set 0 (lane t 0 ^^^ rc)

/-- The Keccak-f[1600] permutation (24 rounds). -/
def keccakF (s : List Nat) : List Nat :=
  keccakRC.foldl keccakRound s

/-- Keccak (pre-NIST) multi-rate padding: append `0x01`, zero fill, and set the
top bit of the final byte of the block. -/
def pad101 (rate : Nat) (msg : List Nat) : List Nat :=
  let r := rate - msg.length % rate
  if r = 1 then msg ++ [0x81]
  else msg ++ 0x01 :: List.replicate (r - 2) 0 ++ [0x80]

/-- Little-endian interpretation of (up to) 8 bytes as one 64-bit lane. -/
def laneLE (bs : List Nat) : Nat :=
  bs.foldr (fun b acc => b + 256 * acc) 0

/-- Absorb one `rate`-byte block into the state and permute. -/
def absorbBlock (s block : List Nat) : List Nat :=
  keccakF <| (List.range 25).map fun i =>
    lane s i ^^^ laneLE ((block.drop (8 * i)).take 8)

/-- Absorb a padded message, 136 bytes at a time (`fuel` bounds the number of
steps; it is instantiated with the message length, which always suffices). -/
def absorbChunks (fuel : Nat) (s rest : List Nat) : List Nat :=
  match fuel with
  | 0 => s
  | f + 1 =>
    match rest with
    | [] => s
    | _ :: _ => absorbChunks f (absorbBlock s (rest.take 136)) (rest.drop 136)

/-- Keccak-256 of a byte string: pad to the 136-byte rate, absorb, and squeeze
the first 32 bytes of the state. -/
def keccak256 (data : List Nat) : List Nat :=
  let padded := pad101 136 data
  let s := absorbChunks (padded.length + 1) (List.replicate 25 0) padded
  (List.range 32).map fun i => (lane s (i / 8) >>> (8 * (i % 8))) &&& 255

/-! ## UTF-8 encoding (Rust `str::as_bytes`) -/

/-- UTF-8 encoding of one character. -/
def utf8Bytes (c : Char) : List Nat :=
  let n := c.toNat
  if n < 0x80 then [n]
  else if n < 0x800 then [0xC0 ||| (n >>> 6), 0x80 ||| (n &&& 0x3F)]
  else if n < 0x10000 then
    [0xE0 ||| (n >>> 12), 0x80 ||| ((n >>> 6) &&& 0x3F), 0x80 ||| (n &&& 0x3F)]
  else
    [0xF0 ||| (n >>> 18), 0x80 ||| ((n >>> 12) &&& 0x3F), 0x80 ||| ((n >>> 6) &&& 0x3F),
     0x80 ||| (n &&& 0x3F)]

/-- UTF-8 byte string of a Rust string (`&str`), modelled as a char list. -/
def strBytes (s : List Char) : List Nat :=
  (s.map utf8Bytes).join

end Elabs

/-! ## `elabs-k256/src/lib.rs` -/

namespace ElabsK256

/-- `k256_hash(data, output)`: writes the Keccak-256 hash of the UTF-8 bytes of
`data` over the 32-byte buffer `output`; `finalize` overwrites the whole
buffer, so the result does not depend on the buffer's previous contents. The
returned list models the buffer after the call. -/
def k256_hash (data : List Char) (output : List Nat) : List Nat :=
  Elabs.keccak256 (Elabs.strBytes data)

/-- `k256(data)`: allocates a zeroed 32-byte buffer, fills it with
`k256_hash`, and returns it. -/
def k256 (data : List Char) : List Nat :=
  k256_hash data (List.replicate 32 0)

end ElabsK256

/-! ## `elabs-crypto/src/lib.rs` (hash functions) -/

namespace ElabsCrypto

/-- `keccak256(data)`: Keccak-256 of raw bytes (same `tiny_keccak` hasher the
`elabs-k256` wrappers use). -/
def keccak256 (data : List Nat) : List Nat :=
  Elabs.keccak256 data

end ElabsCrypto

/-- C10: the two keccak-256 wrappers of `elabs-k256` and the `keccak256` of
`elabs-crypto` compute the same function: for every input string `s` and every
initial output buffer, `k256 s` equals the buffer produced by `k256_hash`, and
both equal `keccak256` applied to the bytes of `s`. -/
theorem c10_keccak_wrappers_agree (s : List Char) (out : List Nat) :
    ElabsK256.k256 s = ElabsK256.k256_hash s out ∧
      ElabsK256.k256 s = ElabsCrypto.keccak256 (Elabs.strBytes s) :=
  ⟨rfl, rfl⟩

namespace Elabs

/-! ## Hex strings (the `hex` crate, as used by `key.rs` and `keys.rs`) -/

/-- Value of one hex digit (the `hex` crate accepts both cases). -/
def hexVal (c : Char) : Option Nat :=
  if '0' ≤ c ∧ c ≤ '9' then some (c.toNat - 48)
  else if 'a' ≤ c ∧ c ≤ 'f' then some (c.toNat - 87)
  else if 'A' ≤ c ∧ c ≤ 'F' then some (c.toNat - 55)
  else none

/-- Decode a hex string, two characters per byte. -/
def hexDecodeChars : List Char → Option (List Nat)
  | [] => some []
  | [_] => none
  | c1 :: c2 :: rest =>
    match hexVal c1, hexVal c2, hexDecodeChars rest with
    | some h, some l, some bs => some ((16 * h + l) :: bs)
    | _, _, _ => none

/-- `hex::decode_to_slice(s, out)` with `out` of length `outLen`: fails unless
`s` is exactly `2 * outLen` valid hex characters (wrong length and bad digits
are distinct error variants in the crate, but every caller in this repository
collapses them with `map_err`, so a unit error suffices). -/
def hexDecodeToSlice (s : List Char) (outLen : Nat) : Except Unit (List Nat) :=
  if s.length = 2 * outLen then
    match hexDecodeChars s with
    | some bs => .ok bs
    | none => .error ()
  else .error ()

/-- Strip one optional `0x` prefix (`hex.starts_with("0x")` then `&hex[2..]`). -/
def strip0x (s : List Char) : List Char :=
  if s.take 2 = ['0', 'x'] then s.drop 2 else s

/-! ## Modular arithmetic and secp256k1-style curve arithmetic (model of the
external `secp256k1` C library, parameterised by the curve constants). -/

/-- `x ^ e % m` by binary exponentiation; `fuel` bounds the recursion depth and
is always instantiated so that `e < 2 ^ fuel`. -/
def powMod (m fuel x e : Nat) : Nat :=
  match fuel with
  | 0 => 1 % m
  | f + 1 =>
    if e = 0 then 1 % m
    else
      let h := powMod m f (x * x % m) (e / 2)
      if e % 2 = 1 then x * h % m else h

/-- Modular inverse by Fermat's little theorem, as the library's
`secp256k1_fe_inv` / `secp256k1_scalar_inverse` do. -/
def invMod (m x : Nat) : Nat := powMod m m x (m - 2)

/-- Modular subtraction on canonical representatives. -/
def subMod (m x y : Nat) : Nat := (x + (m - y)) % m

/-- Modular negation on canonical representatives. -/
def negMod (m y : Nat) : Nat := (m - y) % m

/-- An affine curve point: `none` is the point at infinity. -/
abbrev Pt := Option (Nat × Nat)

/-- Affine chord-and-tangent addition on the curve `y² = x³ + ax + b` over
`𝔽_m` (the case split mirrors `WeierstrassCurve.Affine.Point.add`). -/
def ptAdd (m a : Nat) : Pt → Pt → Pt
  | none, q => q
  | p, none => p
  | some (x1, y1), some (x2, y2) =>
    if x1 = x2 then
      if y1 = negMod m y2 then none
      else
        let l := (3 * x1 * x1 + a) % m * invMod m (2 * y1 % m) % m
        let x3 := subMod m (subMod m (l * l % m) x1) x2
        some (x3, subMod m (l * subMod m x1 x3 % m) y1)
    else
      let l := subMod m y1 y2 * invMod m (subMod m x1 x2) % m
      let x3 := subMod m (subMod m (l * l % m) x1) x2
      some (x3, subMod m (l * subMod m x1 x3 % m) y1)

/-- Double-and-add scalar multiplication (`fuel`-bounded; the fuel is always
instantiated above the bit length of the scalar). -/
def ptMulAux (m a fuel k : Nat) (q : Pt) : Pt :=
  match fuel with
  | 0 => none
  | f + 1 =>
    if k = 0 then none
    else
      let h := ptMulAux m a f (k / 2) (ptAdd m a q q)
      if k % 2 = 1 then ptAdd m a q h else h

/-- `k` times the point `q` on the curve `y² = x³ + ax + b` over `𝔽_m`. -/
def ptMul (m a k : Nat) (q : Pt) : Pt := ptMulAux m a (k + 1) k q

end Elabs

namespace Secp

open Elabs

/-- The curve constants a build of the `secp256k1` library operates on: field
prime `p`, group order `n`, short-Weierstrass coefficients `a`, `b`, and the
affine generator `(gx, gy)`. -/
structure Curve where
  p : Nat
  n : Nat
  a : Nat
  b : Nat
  gx : Nat
  gy : Nat

/-- The real secp256k1 parameters. -/
def secp256k1 : Curve where
  p := 0xfffffffffffffffffffffffffffffffffffffffffffffffffffffffefffffc2f
  n := 0xfffffffffffffffffffffffffffffffebaaedce6af48a03bbfd25e8cd0364141
  a := 0
  b := 7
  gx := 0x79be667ef9dcbbac55a06295ce870b07029bfcdb2dce28d959f2815b16f81798
  gy := 0x483ada7726a3c4655da4fbfc0e1108a8fd17b448a68554199c47d08ffb10d4b8

/-- Error type of the Rust `secp256k1` wrapper (the variants this repository
can hit). -/
inductive Error where
  | invalidSignature
  | invalidPublicKey
  | invalidSecretKey
  | invalidRecoveryId
  | invalidMessage
  deriving DecidableEq

/-- `SecretKey::from_slice`: exactly 32 bytes encoding a nonzero scalar below
the group order; `serialize_secret` returns the same bytes. -/
def SecretKey.fromSlice (C : Curve) (buf : List Nat) : Except Error (List Nat) :=
  if buf.length = 32 ∧ 0 < bytesToNatBE buf ∧ bytesToNatBE buf < C.n then .ok buf
  else .error .invalidSecretKey

/-- The affine point `d · G`. -/
def pubPoint (C : Curve) (d : Nat) : Pt := ptMul C.p C.a d (some (C.gx, C.gy))

/-- `serialize_uncompressed`: tag byte `0x04` followed by the 32-byte
big-endian coordinates. The library cannot represent the point at infinity in
a `PublicKey`; that branch is unreachable for valid inputs (proved where
needed) and is mapped to a zero buffer. -/
def serializeUncompressed (q : Pt) : List Nat :=
  match q with
  | some (x, y) => 4 :: (natToBytesBE 32 x ++ natToBytesBE 32 y)
  | none => List.replicate 65 0

/-- `PublicKey::from_secret_key`: scalar multiplication of the generator,
serialized uncompressed. -/
def PublicKey.fromSecretKey (C : Curve) (d : Nat) : List Nat :=
  serializeUncompressed (pubPoint C d)

/-- `secp256k1_eckey_pubkey_parse` on a 65-byte buffer: tag `0x04` (or the
hybrid tags `0x06`/`0x07` with matching `y` parity), coordinates below `p`,
and the curve equation; other buffers are rejected. -/
def PublicKey.parse (C : Curve) (buf : List Nat) : Except Error (Nat × Nat) :=
  if buf.length = 65 then
    let tag := buf.headD 0
    let x := bytesToNatBE ((buf.drop 1).take 32)
    let y := bytesToNatBE (buf.drop 33)
    if (tag = 4 ∨ (tag = 6 ∧ y % 2 = 0) ∨ (tag = 7 ∧ y % 2 = 1)) ∧ x < C.p ∧ y < C.p ∧
        y * y % C.p = (x * x * x + C.a * x + C.b) % C.p then
      .ok (x, y)
    else .error .invalidPublicKey
  else .error .invalidPublicKey

/-- `Message::from_slice`: any 32-byte buffer. -/
def Message.fromSlice (hash : List Nat) : Except Error (List Nat) :=
  if hash.length = 32 then .ok hash else .error .invalidMessage

/-- The message digest reduced to a scalar (`secp256k1_scalar_set_b32`
wraps on overflow). -/
def msgScalar (C : Curve) (hash : List Nat) : Nat := bytesToNatBE hash % C.n

/-- `RecoveryId::from_i32`: accepts `0..=3` only. -/
def RecoveryId.fromI32 (id : Nat) : Except Error Nat :=
  if id ≤ 3 then .ok id else .error .invalidRecoveryId

/-- `ecdsa::Signature::from_compact` / the compact part of
`RecoverableSignature::from_compact`: exactly 64 bytes, both scalars below the
group order (zero is allowed at parse time). -/
def Signature.fromCompact (C : Curve) (bytes : List Nat) : Except Error (Nat × Nat) :=
  if bytes.length = 64 then
    let r := bytesToNatBE (bytes.take 32)
    let s := bytesToNatBE (bytes.drop 32)
    if r < C.n ∧ s < C.n then .ok (r, s) else .error .invalidSignature
  else .error .invalidSignature

/-- `RecoverableSignature::serialize_compact`: the recovery id together with
`r ‖ s`, each 32 bytes big-endian. -/
def serializeCompact (r s : Nat) : List Nat :=
  natToBytesBE 32 r ++ natToBytesBE 32 s

/-- One signing attempt of `secp256k1_ecdsa_sig_sign` with nonce `k`:
`R = k·G`, `r = R.x mod n` (recording overflow in bit 1 of the recovery id and
`R.y`'s parity in bit 0), `s = k⁻¹(r·d + z)`, normalised to low-`s` (flipping
bit 0 of the recovery id on negation). Returns `none` when `r = 0` or `s = 0`
(or the nonce is degenerate), in which case the library redraws the nonce. -/
def signAttempt (C : Curve) (z d k : Nat) : Option (Nat × Nat × Nat) :=
  match ptMul C.p C.a k (some (C.gx, C.gy)) with
  | none => none
  | some (xR, yR) =>
    let r := xR % C.n
    if r = 0 then none
    else
      let s := invMod C.n k * ((r * d + z) % C.n) % C.n
      if s = 0 then none
      else
        let recid := (if C.n ≤ xR then 2 else 0) + (if yR % 2 = 1 then 1 else 0)
        if C.n / 2 < s then some (r, negMod C.n s, recid ^^^ 1)
        else some (r, s, recid)

/-- `secp256k1_ecdsa_verify` on parsed scalars `r`, `s` against the affine
public key `q`: rejects high `s`, then checks the verification equation
`x(u₁·G + u₂·Q) ≡ r (mod n)` the way `secp256k1_ecdsa_sig_verify` does (a
field-level comparison with an optional `+ n` offset). -/
def verifyCore (C : Curve) (z r s : Nat) (q : Nat × Nat) : Bool :=
  if C.n / 2 < s then false
  else if r = 0 ∨ s = 0 then false
  else
    let sn := invMod C.n s
    let u1 := sn * z % C.n
    let u2 := sn * r % C.n
    match ptAdd C.p C.a (ptMul C.p C.a u2 (some q)) (ptMul C.p C.a u1 (some (C.gx, C.gy))) with
    | none => false
    | some (xr, _) => decide (xr = r ∨ (r + C.n < C.p ∧ xr = r + C.n))

/-- `secp256k1_ecdsa_sig_recover` on parsed scalars `r`, `s` and recovery id
`recid`: rebuild `R` from `r` (adding `n` if bit 1 is set), recover its `y`
coordinate by the `(p+1)/4`-power square root with the parity selected by bit
0, and return `r⁻¹·(s·R − z·G)`; fails on zero scalars, field overflow, a
non-residue, or an infinite result. -/
def recoverCore (C : Curve) (z r s recid : Nat) : Option (Nat × Nat) :=
  if r = 0 ∨ s = 0 then none
  else
    let X := if recid / 2 % 2 = 1 then r + C.n else r
    if C.p ≤ X then none
    else
      let alpha := (X * X * X + C.a * X + C.b) % C.p
      let y0 := powMod C.p C.p alpha ((C.p + 1) / 4)
      if y0 * y0 % C.p = alpha then
        let y := if (y0 % 2 = 1) = (recid % 2 = 1) then y0 else negMod C.p y0
        let rn := invMod C.n r
        let u1 := negMod C.n (rn * z % C.n)
        let u2 := rn * s % C.n
        ptAdd C.p C.a (ptMul C.p C.a u2 (some (X, y))) (ptMul C.p C.a u1 (some (C.gx, C.gy)))
      else none

end Secp

/-! ## `elabs-crypto/src/keys.rs` (the module compiled via `lib.rs`) -/

namespace ElabsCrypto.keys

open Elabs

/-- `keys.rs` `PrivateKey`: a public 32-byte array (any byte value is
constructible, since the field is `pub`). -/
structure PrivateKey where
  bytes : List Nat
  deriving DecidableEq

/-- `keys.rs` `PublicKey`: a public 65-byte array. -/
structure PublicKey where
  bytes : List Nat
  deriving DecidableEq

/-- `keys.rs` `KeyError`. -/
inductive KeyError where
  | invalidLength
  | invalidSecp256k1
  | invalidHex
  deriving DecidableEq

/-- `PrivateKey::from_slice`. -/
def PrivateKey.from_slice (C : Secp.Curve) (buf : List Nat) : Except KeyError PrivateKey :=
  if buf.length ≠ 32 then .error .invalidLength
  else
    match Secp.SecretKey.fromSlice C buf with
    | .error _ => .error .invalidSecp256k1
    | .ok sk => .ok ⟨sk⟩

/-- `PrivateKey::from_hex`: strip an optional `0x`, require 64 hex characters,
decode, and validate the scalar. -/
def PrivateKey.from_hex (C : Secp.Curve) (hex : List Char) : Except KeyError PrivateKey :=
  let hexStr := strip0x hex
  if hexStr.length ≠ 64 then .error .invalidLength
  else
    match hexDecodeToSlice hexStr 32 with
    | .error _ => .error .invalidHex
    | .ok buf =>
      match Secp.SecretKey.fromSlice C buf with
      | .error _ => .error .invalidSecp256k1
      | .ok sk => .ok ⟨sk⟩

/-- `PrivateKey::to_secp256k1`. -/
def PrivateKey.to_secp256k1 (C : Secp.Curve) (k : PrivateKey) : Except KeyError (List Nat) :=
  match Secp.SecretKey.fromSlice C k.bytes with
  | .error _ => .error .invalidSecp256k1
  | .ok sk => .ok sk

/-- `PrivateKey::to_public`: derive the uncompressed public key. -/
def PrivateKey.to_public (C : Secp.Curve) (k : PrivateKey) : Except KeyError PublicKey :=
  match k.to_secp256k1 C with
  | .error e => .error e
  | .ok sk => .ok ⟨Secp.PublicKey.fromSecretKey C (bytesToNatBE sk)⟩

/-- `PublicKey::from_private` (same derivation as `to_public`). -/
def PublicKey.from_private (C : Secp.Curve) (sk : PrivateKey) : Except KeyError PublicKey :=
  match sk.to_secp256k1 C with
  | .error e => .error e
  | .ok s => .ok ⟨Secp.PublicKey.fromSecretKey C (bytesToNatBE s)⟩

/-- `PublicKey::from_slice`. -/
def PublicKey.from_slice (C : Secp.Curve) (buf : List Nat) : Except KeyError PublicKey :=
  if buf.length ≠ 65 then .error .invalidLength
  else
    match Secp.PublicKey.parse C buf with
    | .error _ => .error .invalidSecp256k1
    | .ok q => .ok ⟨Secp.serializeUncompressed (some q)⟩

/-- `PublicKey::from_hex`: strip an optional `0x`, decode straight into a
65-byte buffer (`hex::decode_to_slice` enforces the 130-character length as
part of decoding), and validate the point. -/
def PublicKey.from_hex (C : Secp.Curve) (hex : List Char) : Except KeyError PublicKey :=
  let hexStr := strip0x hex
  match hexDecodeToSlice hexStr 65 with
  | .error _ => .error .invalidHex
  | .ok buf =>
    match Secp.PublicKey.parse C buf with
    | .error _ => .error .invalidSecp256k1
    | .ok q => .ok ⟨Secp.serializeUncompressed (some q)⟩

/-- `PublicKey::to_secp256k1`. -/
def PublicKey.to_secp256k1 (C : Secp.Curve) (pk : PublicKey) : Except KeyError (Nat × Nat) :=
  match Secp.PublicKey.parse C pk.bytes with
  | .error _ => .error .invalidSecp256k1
  | .ok q => .ok q

end ElabsCrypto.keys

/-! ## `elabs-crypto/src/key.rs` (the earlier, uncompiled revision of the key
module; still present in the source tree and referenced by `address.rs`). Its
errors are `String`s. -/

namespace ElabsCrypto.key

open Elabs

/-- `key.rs` `PrivateKey` (public 32-byte array). -/
structure PrivateKey where
  bytes : List Nat
  deriving DecidableEq

/-- `key.rs` `PublicKey` (public 65-byte array). -/
structure PublicKey where
  bytes : List Nat
  deriving DecidableEq

/-- The message of `secp256k1::Error::to_string()` (its exact wording is
irrelevant to every claim; only which branch produced the error matters). -/
def secpErrMsg : List Char := "secp256k1 error".toList

/-- `key.rs` `PrivateKey::from_slice`. -/
def PrivateKey.from_slice (C : Secp.Curve) (data : List Nat) :
    Except (List Char) PrivateKey :=
  if data.length ≠ 32 then .error "Invalid private key length".toList
  else
    match Secp.SecretKey.fromSlice C data with
    | .error _ => .error secpErrMsg
    | .ok sk => .ok ⟨sk⟩

/-- `key.rs` `PrivateKey::from_hex`: strip an optional `0x`, then
`hex::decode_to_slice` into 32 bytes (so a wrong-length string surfaces as the
hex error), then `from_slice`. -/
def PrivateKey.from_hex (C : Secp.Curve) (hex : List Char) : Except (List Char) PrivateKey :=
  let hexStr := strip0x hex
  match hexDecodeToSlice hexStr 32 with
  | .error _ => .error "Invalid hex string".toList
  | .ok buf => PrivateKey.from_slice C buf

/-- `key.rs` `PublicKey::from_private`: unwraps `SecretKey::from_slice`, so an
invalid stored scalar panics (`none`). -/
def PublicKey.from_private (C : Secp.Curve) (sk : PrivateKey) : Option PublicKey :=
  match Secp.SecretKey.fromSlice C sk.bytes with
  | .error _ => none
  | .ok s => some ⟨Secp.PublicKey.fromSecretKey C (bytesToNatBE s)⟩

/-- `key.rs` `PrivateKey::public_key`. -/
def PrivateKey.public_key (C : Secp.Curve) (sk : PrivateKey) : Option PublicKey :=
  PublicKey.from_private C sk

end ElabsCrypto.key

/-! ## `elabs-crypto/src/address.rs` -/

namespace ElabsCrypto.address

open Elabs

/-- The 20-byte Ethereum address. -/
structure Address where
  bytes : List Nat
  deriving DecidableEq

/-- `Address::from_public_key`: Keccak-256 of the 64 coordinate bytes (the
leading `0x04` dropped); the address is the last 20 bytes of the digest
(`elabs_k256::k256_hash` hashes exactly these bytes). -/
def Address.from_public_key (pk : key.PublicKey) : Address :=
  ⟨(Elabs.keccak256 (pk.bytes.drop 1)).drop 12⟩

/-- `Address::from_private_key` (panics, like `key.rs` `public_key`, if the
stored scalar is invalid). -/
def Address.from_private_key (C : Secp.Curve) (sk : key.PrivateKey) : Option Address :=
  (key.PrivateKey.public_key C sk).map Address.from_public_key

/-- `u16::from_str_radix(digit, 16).unwrap()` on one character of the digest
hex string. The digest string consists of `Nat.digitChar` images of nibbles,
which are always valid hex digits, so the `unwrap` cannot panic; out-of-range
characters (which cannot occur) are mapped to 0. -/
def hexValBang (c : Char) : Nat := (hexVal c).getD 0

/-- The lowercase hex rendering (`format!("{:02x}", b)`) of a byte list. -/
def bytesLowerHex (bs : List Nat) : List Char :=
  (bs.map fun b => [Nat.digitChar (b / 16), Nat.digitChar (b % 16)]).join

/-- `Address::to_hex`: render the 40-character lowercase hex string, hash its
ASCII bytes with Keccak-256, and fold over the indexed characters, uppercasing
the character at position `i` exactly when the hex digit of the digest string
at position `i` exceeds 7; the fold starts from `"0x"`. -/
def Address.to_hex (addr : Address) : List Char :=
  let address := bytesLowerHex addr.bytes
  let buf := Elabs.keccak256 (strBytes address)
  let hash := bytesLowerHex buf
  address.enum.foldl
    (fun acc ic =>
      let n := hexValBang (hash.getD ic.1 ' ')
      if 7 < n then acc ++ [ic.2.toUpper] else acc ++ [ic.2])
    ['0', 'x']

end ElabsCrypto.address

/-! ## `elabs-crypto/src/signer.rs` -/

namespace ElabsCrypto.signer

open Elabs

/-- A `RecoverableSignature`: the scalars `r`, `s` and the recovery id. -/
structure RecSig where
  r : Nat
  s : Nat
  recid : Nat
  deriving DecidableEq

/-- `ecrecover(hash, signature, recovery_id)`: recovery id must be `0..=3`,
the signature must parse in compact form, the digest must be 32 bytes (it is
used as passed, not hashed again), and point recovery must succeed. -/
def ecrecover (C : Secp.Curve) (hash signature : List Nat) (recovery_id : Nat) :
    Except Secp.Error (List Nat) :=
  match Secp.RecoveryId.fromI32 recovery_id with
  | .error e => .error e
  | .ok id =>
    match Secp.Signature.fromCompact C signature with
    | .error e => .error e
    | .ok (r, s) =>
      match Secp.Message.fromSlice hash with
      | .error e => .error e
      | .ok msg =>
        match Secp.recoverCore C (Secp.msgScalar C msg) r s id with
        | none => .error .invalidSignature
        | some q => .ok (Secp.serializeUncompressed (some q))

/-- `sign(msg, private_key)`, with the nonce `k` drawn internally by the
library made explicit: hashes the message with Keccak-256, then signs the
digest. The outer `none` models the `unwrap` panic on an invalid stored
scalar; it also absorbs the (internally retried) degenerate-nonce case, which
every theorem below excludes by conditioning on a successful attempt. -/
def sign (C : Secp.Curve) (msg : List Nat) (private_key : keys.PrivateKey) (k : Nat) :
    Option (Except Secp.Error RecSig) :=
  let hash := Elabs.keccak256 msg
  match Secp.Message.fromSlice hash with
  | .error e => some (.error e)
  | .ok msgb =>
    match keys.PrivateKey.to_secp256k1 C private_key with
    | .error _ => none
    | .ok sk =>
      match Secp.signAttempt C (Secp.msgScalar C msgb) (bytesToNatBE sk) k with
      | none => none
      | some (r, s, recid) => some (.ok ⟨r, s, recid⟩)

/-- `verify(msg, signature, public_key)`: hashes the message with Keccak-256,
parses the compact signature (propagating its error), and evaluates the
verification equation; the public key's `to_secp256k1()` is `unwrap`ped, so an
invalid stored point panics (`none`). -/
def verify (C : Secp.Curve) (msg signature : List Nat) (public_key : keys.PublicKey) :
    Option (Except Secp.Error Bool) :=
  let hash := Elabs.keccak256 msg
  match Secp.Message.fromSlice hash with
  | .error e => some (.error e)
  | .ok msgb =>
    match Secp.Signature.fromCompact C signature with
    | .error e => some (.error e)
    | .ok (r, s) =>
      match keys.PublicKey.to_secp256k1 C public_key with
      | .error _ => none
      | .ok q => some (.ok (Secp.verifyCore C (Secp.msgScalar C msgb) r s q))

end ElabsCrypto.signer

/-! ## C1: the known test vector -/

set_option maxRecDepth 100000 in
set_option maxHeartbeats 4000000 in
/-- C1: deriving the public key of the private key
`0x4c0883a69102937d6231471b5dbb6204fe5129617082792ae468d01a3f362318` and then
its address yields the 20-byte address whose lowercase hex rendering is
`0x2c7536e3605d9c16a7a3d7b1898e529396a65c23`, and the rendered checksum
address string is exactly 42 characters long. -/
theorem c1_known_vector :
    ((ElabsCrypto.key.PrivateKey.from_hex Secp.secp256k1
        "0x4c0883a69102937d6231471b5dbb6204fe5129617082792ae468d01a3f362318".toList).toOption.bind
      fun sk => (ElabsCrypto.address.Address.from_private_key Secp.secp256k1 sk).map
        fun a => (a.to_hex.map Char.toLower, a.to_hex.length)) =
      some ("0x2c7536e3605d9c16a7a3d7b1898e529396a65c23".toList, 42) := by
  decide

/-! ## Supporting lemmas for the error-handling claims -/

namespace Elabs

/-- A successful hex decode produces half as many bytes as characters. -/
theorem hexDecodeChars_length :
    ∀ (s : List Char) (bs : List Nat), hexDecodeChars s = some bs → 2 * bs.length = s.length
  | [], bs, h => by
    simp only [hexDecodeChars, Option.some.injEq] at h
    subst h
    rfl
  | [_], bs, h => by
    simp [hexDecodeChars] at h
  | c1 :: c2 :: rest, bs, h => by
    revert h
    simp only [hexDecodeChars]
    cases h1 : hexVal c1 with
    | none => intro h; cases h
    | some v1 =>
      cases h2 : hexVal c2 with
      | none => intro h; cases h
      | some v2 =>
        cases h3 : hexDecodeChars rest with
        | none => intro h; cases h
        | some tl =>
          intro h
          cases h
          have := hexDecodeChars_length rest tl h3
          simp only [List.length_cons]
          omega

/-- Keccak-256 always produces exactly 32 bytes. -/
theorem keccak256_length (data : List Nat) : (keccak256 data).length = 32 := by
  simp [keccak256]

/-- Every byte of a Keccak-256 digest is below 256. -/
theorem keccak256_lt_256 (data : List Nat) : ∀ b ∈ keccak256 data, b < 256 := by
  intro b hb
  simp only [keccak256, List.mem_map] at hb
  obtain ⟨i, _, rfl⟩ := hb
  have : (lane (absorbChunks ((pad101 136 data).length + 1) (List.replicate 25 0)
      (pad101 136 data)) (i / 8) >>> (8 * (i % 8))) &&& 255 ≤ 255 := Nat.and_le_right
  omega

end Elabs

/-! ## C5: `keys.rs` `PrivateKey::from_hex` error behaviour -/

open Elabs in
/-- C5: `PrivateKey::from_hex` strips an optional `0x` prefix; a remainder that
is not exactly 64 characters gives `InvalidLength`; a 64-character remainder
that is not valid hex gives the encoding error `InvalidHex`; a decoded value
that is zero or not below the curve order gives the invalid-scalar error
`InvalidSecp256k1`; otherwise the key is constructed from the decoded bytes. -/
theorem c5_private_key_from_hex (C : Secp.Curve) (hex : List Char) :
    ((strip0x hex).length ≠ 64 →
      ElabsCrypto.keys.PrivateKey.from_hex C hex = .error .invalidLength) ∧
    ((strip0x hex).length = 64 → hexDecodeChars (strip0x hex) = none →
      ElabsCrypto.keys.PrivateKey.from_hex C hex = .error .invalidHex) ∧
    (∀ buf, (strip0x hex).length = 64 → hexDecodeChars (strip0x hex) = some buf →
      ((bytesToNatBE buf = 0 ∨ C.n ≤ bytesToNatBE buf) →
        ElabsCrypto.keys.PrivateKey.from_hex C hex = .error .invalidSecp256k1) ∧
      (0 < bytesToNatBE buf → bytesToNatBE buf < C.n →
        ElabsCrypto.keys.PrivateKey.from_hex C hex = .ok ⟨buf⟩)) := by
  refine ⟨fun hlen => ?_, fun hlen hdec => ?_, fun buf hlen hdec => ⟨fun hbad => ?_, ?_⟩⟩
  · simp [ElabsCrypto.keys.PrivateKey.from_hex, hlen]
  · simp [ElabsCrypto.keys.PrivateKey.from_hex, hlen, hexDecodeToSlice, hdec]
  · have : ¬ (buf.length = 32 ∧ 0 < bytesToNatBE buf ∧ bytesToNatBE buf < C.n) := by
      rcases hbad with h | h <;> omega
    simp [ElabsCrypto.keys.PrivateKey.from_hex, hlen, hexDecodeToSlice, hdec,
      Secp.SecretKey.fromSlice, this]
  · intro h0 hn
    have hbuf : buf.length = 32 := by
      have := hexDecodeChars_length _ _ hdec
      omega
    simp only [ElabsCrypto.keys.PrivateKey.from_hex, hlen, hexDecodeToSlice, hdec,
      Secp.SecretKey.fromSlice]
    simp [hbuf, h0, hn]

/-- Witness for C5 at concrete inputs: a 5-character string is rejected with
`InvalidLength`, and the all-`f` 64-character string (a scalar above the
secp256k1 order) is rejected with `InvalidSecp256k1`. -/
theorem c5_private_key_from_hex_witness :
    ElabsCrypto.keys.PrivateKey.from_hex Secp.secp256k1 "0x123".toList =
        .error .invalidLength ∧
      ElabsCrypto.keys.PrivateKey.from_hex Secp.secp256k1
          (List.replicate 64 'f') = .error .invalidSecp256k1 :=
  ⟨(c5_private_key_from_hex Secp.secp256k1 "0x123".toList).1 (by decide),
    ((c5_private_key_from_hex Secp.secp256k1 (List.replicate 64 'f')).2.2
      (List.replicate 32 0xff) (by decide) (by decide)).1 (by decide)⟩

/-! ## C6: `keys.rs` `PublicKey::from_hex` error behaviour (corrected) -/

/-- Decidable equality for `Except` results (used only to let witnesses
evaluate the embedded functions on concrete inputs). -/
instance {ε α : Type} [DecidableEq ε] [DecidableEq α] : DecidableEq (Except ε α) := fun a b =>
  match a, b with
  | .error x, .error y =>
    if h : x = y then .isTrue (by rw [h]) else .isFalse (by intro hc; cases hc; exact h rfl)
  | .ok x, .ok y =>
    if h : x = y then .isTrue (by rw [h]) else .isFalse (by intro hc; cases hc; exact h rfl)
  | .error _, .ok _ => .isFalse (by intro hc; cases hc)
  | .ok _, .error _ => .isFalse (by intro hc; cases hc)

/-- Counterexample to C6 as stated: the empty string does not have 130 hex
characters after stripping, yet `PublicKey::from_hex` rejects it with the
encoding error `InvalidHex`, not with `InvalidLength` (the function pipes the
string straight into `hex::decode_to_slice`, which reports a length mismatch
as a decoding failure). -/
theorem c6_public_key_from_hex_cex :
    ElabsCrypto.keys.PublicKey.from_hex Secp.secp256k1 [] =
        .error .invalidHex ∧
      ElabsCrypto.keys.KeyError.invalidHex ≠ ElabsCrypto.keys.KeyError.invalidLength :=
  ⟨rfl, by decide⟩

open Elabs in
/-- C6 (amended): `PublicKey::from_hex` strips an optional `0x` prefix and
requires the remainder to decode to exactly 130 hex characters, but a
wrong-length remainder fails with the encoding error `InvalidHex` (never
`InvalidLength`), as does right-length non-hex input; a decoded 65-byte buffer
that is not a valid curve point fails with the invalid-point error
`InvalidSecp256k1`; a valid point is accepted. -/
theorem c6_public_key_from_hex (C : Secp.Curve) (hex : List Char) :
    (ElabsCrypto.keys.PublicKey.from_hex C hex ≠ .error .invalidLength) ∧
    ((strip0x hex).length ≠ 130 →
      ElabsCrypto.keys.PublicKey.from_hex C hex = .error .invalidHex) ∧
    ((strip0x hex).length = 130 → hexDecodeChars (strip0x hex) = none →
      ElabsCrypto.keys.PublicKey.from_hex C hex = .error .invalidHex) ∧
    (∀ buf, (strip0x hex).length = 130 → hexDecodeChars (strip0x hex) = some buf →
      (∀ e, Secp.PublicKey.parse C buf = .error e →
        ElabsCrypto.keys.PublicKey.from_hex C hex = .error .invalidSecp256k1) ∧
      (∀ q, Secp.PublicKey.parse C buf = .ok q →
        ElabsCrypto.keys.PublicKey.from_hex C hex =
          .ok ⟨Secp.serializeUncompressed (some q)⟩)) := by
  refine ⟨?_, fun hlen => ?_, fun hlen hdec => ?_,
    fun buf hlen hdec => ⟨fun e he => ?_, fun q hq => ?_⟩⟩
  · simp only [ElabsCrypto.keys.PublicKey.from_hex]
    cases hdec : hexDecodeToSlice (strip0x hex) 65 with
    | error u => simp
    | ok buf => cases hp : Secp.PublicKey.parse C buf <;> simp [hp]
  · have h2 : ¬ (strip0x hex).length = 2 * 65 := by omega
    simp [ElabsCrypto.keys.PublicKey.from_hex, hexDecodeToSlice, h2]
  · simp [ElabsCrypto.keys.PublicKey.from_hex, hexDecodeToSlice, hlen, hdec]
  · simp [ElabsCrypto.keys.PublicKey.from_hex, hexDecodeToSlice, hlen, hdec, he]
  · simp [ElabsCrypto.keys.PublicKey.from_hex, hexDecodeToSlice, hlen, hdec, hq]

set_option maxRecDepth 40000 in
/-- Witness for the amended C6: a 4-character string fails with `InvalidHex`,
and a 130-character decodable string whose bytes are not a curve point (all
zeros) fails with `InvalidSecp256k1`. -/
theorem c6_public_key_from_hex_witness :
    ElabsCrypto.keys.PublicKey.from_hex Secp.secp256k1 "0x12".toList =
        .error .invalidHex ∧
      ElabsCrypto.keys.PublicKey.from_hex Secp.secp256k1 (List.replicate 130 '0') =
        .error .invalidSecp256k1 :=
  ⟨(c6_public_key_from_hex Secp.secp256k1 "0x12".toList).2.1 (by decide),
    ((c6_public_key_from_hex Secp.secp256k1 (List.replicate 130 '0')).2.2.2
        (List.replicate 65 0) (by decide) (by decide)).1 .invalidPublicKey (by decide)⟩

/-! ## C8: `ecrecover` recovery-id validation -/

namespace Secp

/-- `Signature::from_compact` only ever fails with `InvalidSignature`. -/
theorem Signature.fromCompact_error {C : Curve} {b : List Nat} {e : Error}
    (h : Signature.fromCompact C b = .error e) : e = .invalidSignature := by
  simp only [Signature.fromCompact] at h
  split at h
  · split at h
    · exact Except.noConfusion h
    · injection h with h
      exact h.symm
  · injection h with h
    exact h.symm

/-- `Message::from_slice` only ever fails with `InvalidMessage`. -/
theorem Message.fromSlice_error {b : List Nat} {e : Error}
    (h : Message.fromSlice b = .error e) : e = .invalidMessage := by
  unfold Message.fromSlice at h
  split at h
  · exact Except.noConfusion h
  · injection h with h
    exact h.symm

end Secp

/-- C8: for every digest and signature input, `ecrecover` called with a
recovery id greater than 3 fails with `InvalidRecoveryId`, and with a recovery
id in `0..=3` that error kind never occurs (any failure is then a decode or
recovery failure instead). -/
theorem c8_ecrecover_recovery_id (C : Secp.Curve) (hash signature : List Nat)
    (recovery_id : Nat) :
    (3 < recovery_id →
      ElabsCrypto.signer.ecrecover C hash signature recovery_id =
        .error .invalidRecoveryId) ∧
    (recovery_id ≤ 3 →
      ElabsCrypto.signer.ecrecover C hash signature recovery_id ≠
        .error .invalidRecoveryId) := by
  constructor
  · intro h
    have h2 : ¬ recovery_id ≤ 3 := by omega
    simp [ElabsCrypto.signer.ecrecover, Secp.RecoveryId.fromI32, h2]
  · intro h
    simp only [ElabsCrypto.signer.ecrecover, Secp.RecoveryId.fromI32, if_pos h]
    cases hc : Secp.Signature.fromCompact C signature with
    | error e =>
      have := Secp.Signature.fromCompact_error hc
      subst this
      simp
    | ok rs =>
      obtain ⟨r, s⟩ := rs
      cases hm : Secp.Message.fromSlice hash with
      | error e =>
        have := Secp.Message.fromSlice_error hm
        subst this
        simp
      | ok msg =>
        cases hr : Secp.recoverCore C (Secp.msgScalar C msg) r s recovery_id <;> simp [hr]

/-- Witness for C8: recovery id 7 is rejected with `InvalidRecoveryId`; with
recovery id 0 (and inputs that fail later) the error is never
`InvalidRecoveryId`. -/
theorem c8_ecrecover_recovery_id_witness :
    ElabsCrypto.signer.ecrecover Secp.secp256k1 [] [] 7 = .error .invalidRecoveryId ∧
      ElabsCrypto.signer.ecrecover Secp.secp256k1 [] [] 0 ≠ .error .invalidRecoveryId :=
  ⟨(c8_ecrecover_recovery_id Secp.secp256k1 [] [] 7).1 (by decide),
    (c8_ecrecover_recovery_id Secp.secp256k1 [] [] 0).2 (by decide)⟩

/-! ## C9: the claimed panic-freedom fails (code bug) -/

set_option maxRecDepth 40000 in
/-- C9 (the code contradicts it): `PrivateKey`'s wrapped byte array is a
public field, so `PrivateKey([0u8; 32])` is constructible; on it,
`to_secp256k1()` returns `Err`, and `sign` `unwrap`s that `Err` — for every
message and every internal nonce the embedded `sign` reaches the panic branch
(`none`) instead of returning a typed error. Likewise `verify` panics on a
constructible `PublicKey` whose bytes are not a valid curve point, here
`PublicKey([0u8; 65])` with a 64-byte zero signature. -/
theorem c9_sign_verify_panic :
    (ElabsCrypto.keys.PrivateKey.to_secp256k1 Secp.secp256k1 ⟨List.replicate 32 0⟩ =
        .error .invalidSecp256k1) ∧
    (∀ msg k, ElabsCrypto.signer.sign Secp.secp256k1 msg ⟨List.replicate 32 0⟩ k = none) ∧
    (ElabsCrypto.signer.verify Secp.secp256k1 [] (List.replicate 64 0)
        ⟨List.replicate 65 0⟩ = none) := by
  have h0 : Secp.SecretKey.fromSlice Secp.secp256k1 (List.replicate 32 0) =
      .error .invalidSecretKey := by decide
  refine ⟨by simp only [ElabsCrypto.keys.PrivateKey.to_secp256k1, h0], fun msg k => ?_,
    by decide⟩
  have hmsg : Secp.Message.fromSlice (Elabs.keccak256 msg) = .ok (Elabs.keccak256 msg) := by
    simp [Secp.Message.fromSlice, Elabs.keccak256_length]
  simp only [ElabsCrypto.signer.sign, hmsg, ElabsCrypto.keys.PrivateKey.to_secp256k1, h0]

/-! ## C7: `verify` error channel -/

open Elabs in
/-- C7: with a validly-constructed public key, `verify` returns `Ok` of the
outcome of the library's verification predicate whenever the 64-byte signature
parses with canonical (below-order) `r`, `s` — in particular `Ok(false)`, not
an error, when the equation does not hold — and returns `Err` (always
`InvalidSignature`) exactly when the signature bytes are structurally
malformed: wrong length or non-canonical `r`/`s`; it never panics. -/
theorem c7_verify_error_channel (C : Secp.Curve) (msg signature : List Nat)
    (pk : ElabsCrypto.keys.PublicKey) (q : Nat × Nat)
    (hq : ElabsCrypto.keys.PublicKey.to_secp256k1 C pk = .ok q) :
    (signature.length = 64 →
      bytesToNatBE (signature.take 32) < C.n → bytesToNatBE (signature.drop 32) < C.n →
      ElabsCrypto.signer.verify C msg signature pk =
        some (.ok (Secp.verifyCore C (Secp.msgScalar C (keccak256 msg))
          (bytesToNatBE (signature.take 32)) (bytesToNatBE (signature.drop 32)) q))) ∧
    (∀ e, ElabsCrypto.signer.verify C msg signature pk = some (.error e) →
      e = .invalidSignature ∧
        ¬ (signature.length = 64 ∧ bytesToNatBE (signature.take 32) < C.n ∧
            bytesToNatBE (signature.drop 32) < C.n)) ∧
    ElabsCrypto.signer.verify C msg signature pk ≠ none := by
  have hmsg : Secp.Message.fromSlice (keccak256 msg) = .ok (keccak256 msg) := by
    simp [Secp.Message.fromSlice, keccak256_length]
  by_cases h64 : signature.length = 64
  · by_cases hr : bytesToNatBE (signature.take 32) < C.n
    · by_cases hs : bytesToNatBE (signature.drop 32) < C.n
      · have hc : Secp.Signature.fromCompact C signature =
            .ok (bytesToNatBE (signature.take 32), bytesToNatBE (signature.drop 32)) := by
          simp [Secp.Signature.fromCompact, h64, hr, hs]
        refine ⟨fun _ _ _ => ?_, fun e he => ?_, ?_⟩
        · simp [ElabsCrypto.signer.verify, hmsg, hc, hq]
        · rw [ElabsCrypto.signer.verify] at he
          simp only [hmsg, hc, hq] at he
          exact absurd he (by simp)
        · simp [ElabsCrypto.signer.verify, hmsg, hc, hq]
      · have hc : Secp.Signature.fromCompact C signature = .error .invalidSignature := by
          simp [Secp.Signature.fromCompact, h64, hs]
        refine ⟨fun _ _ hs2 => absurd hs2 hs, fun e he => ?_, ?_⟩
        · rw [ElabsCrypto.signer.verify] at he
          simp only [hmsg, hc] at he
          simp only [Option.some.injEq] at he
          injection he.symm with h2
          exact ⟨h2, by tauto⟩
        · simp [ElabsCrypto.signer.verify, hmsg, hc]
    · have hc : Secp.Signature.fromCompact C signature = .error .invalidSignature := by
        simp [Secp.Signature.fromCompact, h64, hr]
      refine ⟨fun _ hr2 => absurd hr2 hr, fun e he => ?_, ?_⟩
      · rw [ElabsCrypto.signer.verify] at he
        simp only [hmsg, hc] at he
        simp only [Option.some.injEq] at he
        injection he.symm with h2
        exact ⟨h2, by tauto⟩
      · simp [ElabsCrypto.signer.verify, hmsg, hc]
  · have hc : Secp.Signature.fromCompact C signature = .error .invalidSignature := by
      simp [Secp.Signature.fromCompact, h64]
    refine ⟨fun h2 => absurd h2 h64, fun e he => ?_, ?_⟩
    · rw [ElabsCrypto.signer.verify] at he
      simp only [hmsg, hc] at he
      simp only [Option.some.injEq] at he
      injection he.symm with h2
      exact ⟨h2, by tauto⟩
    · simp [ElabsCrypto.signer.verify, hmsg, hc]

set_option maxRecDepth 40000 in
/-- Witness for C7: the generator's public key with the all-zero 64-byte
signature parses and yields `Ok` of the verification predicate's outcome. -/
theorem c7_verify_error_channel_witness :
    ElabsCrypto.signer.verify Secp.secp256k1 [] (List.replicate 64 0)
        ⟨Secp.serializeUncompressed (some (Secp.secp256k1.gx, Secp.secp256k1.gy))⟩ =
      some (.ok (Secp.verifyCore Secp.secp256k1
        (Secp.msgScalar Secp.secp256k1 (Elabs.keccak256 []))
        (Elabs.bytesToNatBE ((List.replicate 64 0).take 32))
        (Elabs.bytesToNatBE ((List.replicate 64 0).drop 32))
        (Secp.secp256k1.gx, Secp.secp256k1.gy))) :=
  (c7_verify_error_channel Secp.secp256k1 [] (List.replicate 64 0)
      ⟨Secp.serializeUncompressed (some (Secp.secp256k1.gx, Secp.secp256k1.gy))⟩
      (Secp.secp256k1.gx, Secp.secp256k1.gy) (by decide)).1
    (by decide) (by decide) (by decide)

/-! ## C4: checksum rendering -/

namespace Elabs

/-- Evaluating one byte of the lowercase hex rendering. -/
theorem bytesLowerHex_cons (b : Nat) (t : List Nat) :
    ElabsCrypto.address.bytesLowerHex (b :: t) =
      Nat.digitChar (b / 16) :: Nat.digitChar (b % 16) ::
        ElabsCrypto.address.bytesLowerHex t := rfl

/-- The lowercase hex rendering has two characters per byte. -/
theorem bytesLowerHex_length (bs : List Nat) :
    (ElabsCrypto.address.bytesLowerHex bs).length = 2 * bs.length := by
  induction bs with
  | nil => rfl
  | cons b t ih =>
    rw [bytesLowerHex_cons]
    simp only [List.length_cons, ih]
    omega

/-- Lowercasing is the identity on hex digit characters, and undoes their
uppercasing. -/
theorem digitChar_lower (n : Nat) (h : n < 16) :
    (Nat.digitChar n).toLower = Nat.digitChar n ∧
      (Nat.digitChar n).toUpper.toLower = Nat.digitChar n := by
  revert h
  revert n
  decide

/-- Every character of a lowercase hex rendering of genuine bytes is a hex
digit character: lowercasing fixes it and undoes uppercasing. -/
theorem mem_bytesLowerHex (bs : List Nat) (hb : ∀ b ∈ bs, b < 256) :
    ∀ c ∈ ElabsCrypto.address.bytesLowerHex bs,
      c.toLower = c ∧ c.toUpper.toLower = c := by
  induction bs with
  | nil => simp [ElabsCrypto.address.bytesLowerHex]
  | cons b t ih =>
    intro c hc
    rw [bytesLowerHex_cons, List.mem_cons, List.mem_cons] at hc
    have hb0 : b < 256 := hb b (List.mem_cons_self b t)
    rcases hc with rfl | rfl | hc
    · exact digitChar_lower (b / 16) (by omega)
    · exact digitChar_lower (b % 16) (by omega)
    · exact ih (fun x hx => hb x (List.mem_cons_of_mem b hx)) c hc

/-- `List.getD` at an in-range index. -/
theorem getD_of_lt {α : Type} (l : List α) (i : Nat) (d : α) (h : i < l.length) :
    l.getD i d = l[i] := by
  rw [List.getD_eq_getElem?_getD, List.getElem?_eq_getElem h]
  rfl

/-- The checksum fold of `Address::to_hex`, as a map over indexed characters. -/
theorem foldl_checksum (hash : List Char) :
    ∀ (l : List (Nat × Char)) (init : List Char),
      l.foldl
        (fun acc ic =>
          let n := ElabsCrypto.address.hexValBang (hash.getD ic.1 ' ')
          if 7 < n then acc ++ [ic.2.toUpper] else acc ++ [ic.2])
        init =
      init ++ l.map fun ic =>
        if 7 < ElabsCrypto.address.hexValBang (hash.getD ic.1 ' ')
        then ic.2.toUpper else ic.2
  | [], init => by simp
  | x :: l, init => by
    simp only [List.foldl_cons, List.map_cons]
    rw [foldl_checksum hash l]
    by_cases h : 7 < ElabsCrypto.address.hexValBang (hash.getD x.1 ' ')
    · simp only [if_pos h]
      simp
    · simp only [if_neg h]
      simp

/-- `Address::to_hex`, rewritten from an indexed fold to `"0x"` followed by a
positionwise map over the 40 address characters. -/
theorem to_hex_normal_form (addr : ElabsCrypto.address.Address) :
    addr.to_hex = '0' :: 'x' ::
      ((ElabsCrypto.address.bytesLowerHex addr.bytes).enum.map fun ic =>
        if 7 < ElabsCrypto.address.hexValBang
            ((ElabsCrypto.address.bytesLowerHex
              (keccak256 (strBytes (ElabsCrypto.address.bytesLowerHex addr.bytes)))).getD ic.1 ' ')
        then ic.2.toUpper else ic.2) := by
  rw [ElabsCrypto.address.Address.to_hex]
  rw [foldl_checksum]
  rfl

end Elabs

open Elabs in
/-- C4: for every 20-byte address, the checksum rendering is `0x` followed by
exactly 40 hex characters (42 characters in total, starting with `0x`); the
address character at position `i` is uppercased exactly when the `i`-th hex
digit of the lowercase hex rendering of `keccak256` of the ASCII bytes of the
40-character lowercase address string, read as a 4-bit value, exceeds 7; and
lowercasing the rendering reproduces the plain lowercase hex address. -/
theorem c4_checksum_rendering (addr : ElabsCrypto.address.Address)
    (hlen : addr.bytes.length = 20) (hbytes : ∀ b ∈ addr.bytes, b < 256) :
    addr.to_hex.length = 42 ∧
    addr.to_hex.take 2 = ['0', 'x'] ∧
    addr.to_hex.map Char.toLower =
      '0' :: 'x' :: ElabsCrypto.address.bytesLowerHex addr.bytes ∧
    (∀ i, i < 40 →
      addr.to_hex.getD (i + 2) ' ' =
        if 7 < ElabsCrypto.address.hexValBang
            ((ElabsCrypto.address.bytesLowerHex
              (keccak256 (strBytes (ElabsCrypto.address.bytesLowerHex addr.bytes)))).getD i ' ')
        then ((ElabsCrypto.address.bytesLowerHex addr.bytes).getD i ' ').toUpper
        else (ElabsCrypto.address.bytesLowerHex addr.bytes).getD i ' ') := by
  have hA : (ElabsCrypto.address.bytesLowerHex addr.bytes).length = 40 := by
    rw [bytesLowerHex_length, hlen]
  rw [to_hex_normal_form]
  refine ⟨?_, rfl, ?_, ?_⟩
  · simp [hA]
  · simp only [List.map_cons]
    rw [show Char.toLower '0' = '0' from by decide, show Char.toLower 'x' = 'x' from by decide]
    congr 1
    congr 1
    rw [List.map_map]
    have hmem : ∀ c ∈ ElabsCrypto.address.bytesLowerHex addr.bytes,
        c.toLower = c ∧ c.toUpper.toLower = c := mem_bytesLowerHex addr.bytes hbytes
    apply List.ext_getElem
    · simp
    · intro i hi1 hi2
      simp only [List.getElem_map, List.getElem_enum, Function.comp_apply]
      have hm : (ElabsCrypto.address.bytesLowerHex addr.bytes)[i] ∈
          ElabsCrypto.address.bytesLowerHex addr.bytes := List.getElem_mem hi2
      split
      · exact (hmem _ hm).2
      · exact (hmem _ hm).1
  · intro i hi
    have hi40 : i < (ElabsCrypto.address.bytesLowerHex addr.bytes).length := by omega
    rw [List.getD_cons_succ, List.getD_cons_succ]
    have hmap : i < ((ElabsCrypto.address.bytesLowerHex addr.bytes).enum.map fun ic =>
        if 7 < ElabsCrypto.address.hexValBang
            ((ElabsCrypto.address.bytesLowerHex
              (keccak256 (strBytes (ElabsCrypto.address.bytesLowerHex addr.bytes)))).getD ic.1 ' ')
        then ic.2.toUpper else ic.2).length := by
      simp only [List.length_map, List.enum_length]
      omega
    rw [getD_of_lt _ _ _ hmap]
    rw [getD_of_lt _ _ _ hi40]
    simp only [List.getElem_map, List.getElem_enum]

/-- Witness for C4 at a concrete 20-byte address. -/
theorem c4_checksum_rendering_witness :
    (ElabsCrypto.address.Address.to_hex ⟨List.range 20⟩).length = 42 ∧
      (ElabsCrypto.address.Address.to_hex ⟨List.range 20⟩).take 2 = ['0', 'x'] :=
  ⟨(c4_checksum_rendering ⟨List.range 20⟩ (by decide) (by decide)).1,
    (c4_checksum_rendering ⟨List.range 20⟩ (by decide) (by decide)).2.1⟩

/-! ## Bridge between the executable curve arithmetic and
`WeierstrassCurve.Affine.Point` (used to settle the ECDSA round trips) -/

namespace EC

open Elabs

/-- The short Weierstrass curve `y² = x³ + Ax + B` over `ZMod P`. -/
def Wc (P A B : Nat) : WeierstrassCurve.Affine (ZMod P) :=
  { a₁ := 0, a₂ := 0, a₃ := 0, a₄ := (A : ZMod P), a₆ := (B : ZMod P) }

/-- Casting the canonical value of a residue back to the residue ring. -/
theorem cast_val {P : Nat} [NeZero P] (x : ZMod P) : ((x.val : Nat) : ZMod P) = x := by
  rw [ZMod.natCast_val, ZMod.cast_id]

/-- A natural number below `P` equals the value of its cast. -/
theorem val_of_cast_eq {P : Nat} [NeZero P] (a : Nat) (b : ZMod P)
    (h : (a : ZMod P) = b) (ha : a < P) : b.val = a := by
  subst h
  exact ZMod.val_cast_of_lt ha

/-- `subMod` casts to subtraction in `ZMod P`. -/
theorem subMod_cast {P : Nat} (a b : Nat) (hb : b ≤ P) :
    ((subMod P a b : Nat) : ZMod P) = (a : ZMod P) - (b : ZMod P) := by
  rw [subMod, ZMod.natCast_mod, Nat.cast_add, Nat.cast_sub hb, ZMod.natCast_self]
  ring

/-- `negMod` casts to negation in `ZMod P`. -/
theorem negMod_cast {P : Nat} (b : Nat) (hb : b ≤ P) :
    ((negMod P b : Nat) : ZMod P) = -(b : ZMod P) := by
  rw [negMod, ZMod.natCast_mod, Nat.cast_sub hb, ZMod.natCast_self]
  ring

/-- `subMod` stays below the modulus. -/
theorem subMod_lt {P : Nat} (a b : Nat) (hP : 0 < P) : subMod P a b < P :=
  Nat.mod_lt _ hP

/-- `negMod` stays below the modulus. -/
theorem negMod_lt {P : Nat} (b : Nat) (hP : 0 < P) : negMod P b < P :=
  Nat.mod_lt _ hP

/-- `powMod` stays below the modulus. -/
theorem powMod_lt (P : Nat) (hP : 0 < P) :
    ∀ (fuel x e : Nat), powMod P fuel x e < P
  | 0, _, _ => by
    simp only [powMod]
    exact Nat.mod_lt _ hP
  | fuel + 1, x, e => by
    simp only [powMod]
    split
    · exact Nat.mod_lt _ hP
    · split
      · exact Nat.mod_lt _ hP
      · exact powMod_lt P hP fuel (x * x % P) (e / 2)

/-- `powMod` casts to exponentiation in `ZMod P`. -/
theorem powMod_cast {P : Nat} [NeZero P] :
    ∀ (fuel x e : Nat), e < 2 ^ fuel →
      ((powMod P fuel x e : Nat) : ZMod P) = (x : ZMod P) ^ e
  | 0, x, e, he => by
    have : e = 0 := by omega
    subst this
    simp only [powMod, ZMod.natCast_mod, Nat.cast_one, pow_zero]
  | fuel + 1, x, e, he => by
    simp only [powMod]
    by_cases h0 : e = 0
    · subst h0
      simp [ZMod.natCast_mod]
    · rw [if_neg h0]
      have hdiv : e / 2 < 2 ^ fuel := by
        have h2 : e < 2 * 2 ^ fuel := by
          have : (2 : Nat) ^ (fuel + 1) = 2 * 2 ^ fuel := by ring
          omega
        omega
      have ih := @powMod_cast P _ fuel (x * x % P) (e / 2) hdiv
      rw [ZMod.natCast_mod, Nat.cast_mul] at ih
      by_cases hodd : e % 2 = 1
      · rw [if_pos hodd, ZMod.natCast_mod, Nat.cast_mul, ih]
        have : ((x : ZMod P) * x) ^ (e / 2) = (x : ZMod P) ^ (2 * (e / 2)) := by
          rw [pow_mul]
          ring_nf
        rw [this, ← pow_succ']
        congr 1
        omega
      · rw [if_neg hodd, ih]
        have : ((x : ZMod P) * x) ^ (e / 2) = (x : ZMod P) ^ (2 * (e / 2)) := by
          rw [pow_mul]
          ring_nf
        rw [this]
        congr 1
        omega

/-- Fermat: `x ^ (P - 2)` inverts a nonzero residue modulo a prime. -/
theorem pow_card_sub_two {P : Nat} [Fact P.Prime] (x : ZMod P) (hx : x ≠ 0) :
    x ^ (P - 2) = x⁻¹ := by
  have h2 : 2 ≤ P := (Fact.out : P.Prime).two_le
  have h1 : x * x ^ (P - 2) = 1 := by
    rw [← pow_succ']
    have : P - 2 + 1 = P - 1 := by omega
    rw [this]
    exact ZMod.pow_card_sub_one_eq_one hx
  exact (inv_eq_of_mul_eq_one_right h1).symm

/-- `invMod` casts to field inversion for nonzero residues modulo a prime. -/
theorem invMod_cast {P : Nat} [Fact P.Prime] (x : Nat) (hx : (x : ZMod P) ≠ 0) :
    ((invMod P x : Nat) : ZMod P) = (x : ZMod P)⁻¹ := by
  haveI : NeZero P := ⟨(Fact.out : P.Prime).ne_zero⟩
  have hfe : P - 2 < 2 ^ P := by
    have h2 := Nat.lt_two_pow P
    omega
  rw [invMod, @powMod_cast P _ P x (P - 2) hfe]
  exact pow_card_sub_two _ hx

end EC

namespace EC

open Elabs

/-- Map a Mathlib curve point to the executable affine representation. -/
def ptD {P A B : Nat} : (Wc P A B).Point → Pt
  | .zero => none
  | @WeierstrassCurve.Affine.Point.some _ _ _ x y _ => some (x.val, y.val)

/-- Values determine residues. -/
theorem val_inj {P : Nat} [NeZero P] {a b : ZMod P} (h : a.val = b.val) : a = b :=
  ZMod.val_injective P h

/-- Adding the point at infinity on the left. -/
theorem ptAdd_none_left (m a : Nat) (q : Pt) : ptAdd m a none q = q := by
  cases q <;> rfl

/-- Adding the point at infinity on the right. -/
theorem ptAdd_none_right (m a : Nat) (p : Pt) : ptAdd m a p none = p := by
  cases p <;> rfl

/-- `ptD` hits `none` only at the point at infinity. -/
theorem ptD_eq_none {P A B : Nat} (X : (Wc P A B).Point) (h : ptD X = none) : X = 0 := by
  cases X with
  | zero => rfl
  | @some x y hxy => exact Option.noConfusion h

/-- The executable curve addition agrees with the Mathlib group operation. -/
theorem ptD_add {P A B : Nat} [Fact P.Prime] (X Y : (Wc P A B).Point) :
    ptD (X + Y) = ptAdd P A (ptD X) (ptD Y) := by
  haveI : NeZero P := ⟨(Fact.out : P.Prime).ne_zero⟩
  have hP : 0 < P := Nat.pos_of_ne_zero (NeZero.ne P)
  have hnegY : ∀ x y : ZMod P, (Wc P A B).negY x y = -y := by
    intro x y
    simp [Wc, WeierstrassCurve.Affine.negY]
  cases X with
  | zero =>
    have h1 : (WeierstrassCurve.Affine.Point.zero + Y : (Wc P A B).Point) = Y := by
      rw [WeierstrassCurve.Affine.Point.zero_def, zero_add]
    rw [h1]
    exact (ptAdd_none_left P A (ptD Y)).symm
  | @some x₁ y₁ h₁ =>
    cases Y with
    | zero =>
      have h1 : (WeierstrassCurve.Affine.Point.some h₁ +
          WeierstrassCurve.Affine.Point.zero : (Wc P A B).Point) =
          WeierstrassCurve.Affine.Point.some h₁ := by
        rw [WeierstrassCurve.Affine.Point.zero_def, add_zero]
      rw [h1]
      exact (ptAdd_none_right P A (ptD (WeierstrassCurve.Affine.Point.some h₁))).symm
    | @some x₂ y₂ h₂ =>
      have hvx1 : ((x₁.val : Nat) : ZMod P) = x₁ := cast_val x₁
      have hvy1 : ((y₁.val : Nat) : ZMod P) = y₁ := cast_val y₁
      have hvx2 : ((x₂.val : Nat) : ZMod P) = x₂ := cast_val x₂
      have hvy2 : ((y₂.val : Nat) : ZMod P) = y₂ := cast_val y₂
      by_cases hx : x₁ = x₂
      · by_cases hy : y₁ = (Wc P A B).negY x₂ y₂
        · rw [WeierstrassCurve.Affine.Point.add_of_Y_eq hx hy]
          have hxv : x₁.val = x₂.val := by rw [hx]
          have hyv : y₁.val = negMod P y₂.val := by
            have hyn : y₁ = -y₂ := by rw [hy, hnegY]
            refine val_of_cast_eq _ _ ?_ (negMod_lt _ hP)
            rw [negMod_cast _ (le_of_lt (ZMod.val_lt y₂)), hvy2]
            exact hyn.symm
          show (none : Pt) = ptAdd P A (some (x₁.val, y₁.val)) (some (x₂.val, y₂.val))
          simp only [ptAdd]
          rw [if_pos hxv, if_pos hyv]
        · -- tangent case
          have hE1 := h₁.1
          have hE2 := h₂.1
          have hyy : y₁ = y₂ := WeierstrassCurve.Affine.Y_eq_of_Y_ne hE1 hE2 hx hy
          have h2y : (2 : ZMod P) * y₁ ≠ 0 := by
            intro hc
            apply hy
            rw [two_mul] at hc
            have : y₁ = -y₁ := eq_neg_of_add_eq_zero_left hc
            rw [hnegY, ← hyy, ← this]
          have hxv : x₁.val = x₂.val := by rw [hx]
          have hyv : ¬ y₁.val = negMod P y₂.val := by
            intro hc
            apply hy
            rw [hnegY]
            apply val_inj
            rw [hc]
            refine (val_of_cast_eq _ _ ?_ (negMod_lt _ hP)).symm
            rw [negMod_cast _ (le_of_lt (ZMod.val_lt y₂)), hvy2]
          rw [WeierstrassCurve.Affine.Point.add_of_imp (fun _ => hy)]
          have hden : ((2 * y₁.val % P : Nat) : ZMod P) = 2 * y₁ := by
            rw [ZMod.natCast_mod, Nat.cast_mul, hvy1, Nat.cast_ofNat]
          have hdenne : ((2 * y₁.val % P : Nat) : ZMod P) ≠ 0 := by
            rw [hden]; exact h2y
          have hslope : (Wc P A B).slope x₁ x₂ y₁ y₂ =
              (3 * x₁ ^ 2 + (A : ZMod P)) * (2 * y₁)⁻¹ := by
            rw [WeierstrassCurve.Affine.slope_of_Y_ne hx hy]
            rw [hnegY]
            simp only [Wc]
            rw [div_eq_mul_inv]
            ring_nf
          have hcastl : ((((3 * x₁.val * x₁.val + A) % P) * invMod P (2 * y₁.val % P) % P : Nat) :
              ZMod P) = (Wc P A B).slope x₁ x₂ y₁ y₂ := by
            rw [ZMod.natCast_mod, Nat.cast_mul, ZMod.natCast_mod]
            rw [invMod_cast _ hdenne, hden, hslope]
            push_cast [hvx1]
            ring
          set lN := ((3 * x₁.val * x₁.val + A) % P) * invMod P (2 * y₁.val % P) % P with hlN
          set L := (Wc P A B).slope x₁ x₂ y₁ y₂ with hL
          have hx3 : ((subMod P (subMod P (lN * lN % P) x₁.val) x₂.val : Nat) : ZMod P) =
              (Wc P A B).addX x₁ x₂ L := by
            rw [subMod_cast _ _ (le_of_lt (ZMod.val_lt x₂)),
              subMod_cast _ _ (le_of_lt (ZMod.val_lt x₁)), ZMod.natCast_mod, Nat.cast_mul,
              hcastl, hvx1, hvx2]
            simp only [WeierstrassCurve.Affine.addX, Wc]
            ring
          have hx3lt := subMod_lt (subMod P (lN * lN % P) x₁.val) x₂.val hP
          set x3N := subMod P (subMod P (lN * lN % P) x₁.val) x₂.val with hx3N
          have hy3 : ((subMod P (lN * subMod P x₁.val x3N % P) y₁.val : Nat) : ZMod P) =
              (Wc P A B).addY x₁ x₂ y₁ L := by
            rw [subMod_cast _ _ (le_of_lt (ZMod.val_lt y₁)), ZMod.natCast_mod, Nat.cast_mul,
              subMod_cast _ _ (le_of_lt hx3lt), hcastl, hvx1, hvy1, hx3]
            simp only [WeierstrassCurve.Affine.addY, WeierstrassCurve.Affine.negAddY,
              WeierstrassCurve.Affine.negY, Wc]
            ring
          show some (((Wc P A B).addX x₁ x₂ L).val, ((Wc P A B).addY x₁ x₂ y₁ L).val) =
            ptAdd P A (some (x₁.val, y₁.val)) (some (x₂.val, y₂.val))
          simp only [ptAdd]
          rw [if_pos hxv, if_neg hyv]
          refine congrArg some (Prod.ext ?_ ?_)
          · exact val_of_cast_eq _ _ hx3 hx3lt
          · exact val_of_cast_eq _ _ hy3 (subMod_lt _ _ hP)
      · -- chord case
        have hxv : ¬ x₁.val = x₂.val := fun hc => hx (val_inj hc)
        have hdiff : ((subMod P x₁.val x₂.val : Nat) : ZMod P) = x₁ - x₂ := by
          rw [subMod_cast _ _ (le_of_lt (ZMod.val_lt x₂)), hvx1, hvx2]
        have hdiffne : ((subMod P x₁.val x₂.val : Nat) : ZMod P) ≠ 0 := by
          rw [hdiff]
          exact sub_ne_zero.mpr hx
        rw [WeierstrassCurve.Affine.Point.add_of_X_ne hx]
        have hslope : (Wc P A B).slope x₁ x₂ y₁ y₂ = (y₁ - y₂) * (x₁ - x₂)⁻¹ := by
          rw [WeierstrassCurve.Affine.slope_of_X_ne hx, div_eq_mul_inv]
        have hcastl : ((subMod P y₁.val y₂.val * invMod P (subMod P x₁.val x₂.val) % P : Nat) :
            ZMod P) = (Wc P A B).slope x₁ x₂ y₁ y₂ := by
          rw [ZMod.natCast_mod, Nat.cast_mul, invMod_cast _ hdiffne, hdiff,
            subMod_cast _ _ (le_of_lt (ZMod.val_lt y₂)), hvy1, hvy2, hslope]
        set lN := subMod P y₁.val y₂.val * invMod P (subMod P x₁.val x₂.val) % P with hlN
        set L := (Wc P A B).slope x₁ x₂ y₁ y₂ with hL
        have hx3 : ((subMod P (subMod P (lN * lN % P) x₁.val) x₂.val : Nat) : ZMod P) =
            (Wc P A B).addX x₁ x₂ L := by
          rw [subMod_cast _ _ (le_of_lt (ZMod.val_lt x₂)),
            subMod_cast _ _ (le_of_lt (ZMod.val_lt x₁)), ZMod.natCast_mod, Nat.cast_mul,
            hcastl, hvx1, hvx2]
          simp only [WeierstrassCurve.Affine.addX, Wc]
          ring
        have hx3lt := subMod_lt (subMod P (lN * lN % P) x₁.val) x₂.val hP
        set x3N := subMod P (subMod P (lN * lN % P) x₁.val) x₂.val with hx3N
        have hy3 : ((subMod P (lN * subMod P x₁.val x3N % P) y₁.val : Nat) : ZMod P) =
            (Wc P A B).addY x₁ x₂ y₁ L := by
          rw [subMod_cast _ _ (le_of_lt (ZMod.val_lt y₁)), ZMod.natCast_mod, Nat.cast_mul,
            subMod_cast _ _ (le_of_lt hx3lt), hcastl, hvx1, hvy1, hx3]
          simp only [WeierstrassCurve.Affine.addY, WeierstrassCurve.Affine.negAddY,
            WeierstrassCurve.Affine.negY, Wc]
          ring
        show some (((Wc P A B).addX x₁ x₂ L).val, ((Wc P A B).addY x₁ x₂ y₁ L).val) =
          ptAdd P A (some (x₁.val, y₁.val)) (some (x₂.val, y₂.val))
        simp only [ptAdd]
        rw [if_neg hxv]
        refine congrArg some (Prod.ext ?_ ?_)
        · exact val_of_cast_eq _ _ hx3 hx3lt
        · exact val_of_cast_eq _ _ hy3 (subMod_lt _ _ hP)

end EC

namespace EC

open Elabs

/-- The executable double-and-add agrees with the group's scalar
multiplication, given enough fuel. -/
theorem ptD_mul {P A B : Nat} [Fact P.Prime] :
    ∀ (fuel k : Nat) (X : (Wc P A B).Point), k < 2 ^ fuel →
      ptMulAux P A fuel k (ptD X) = ptD (k • X)
  | 0, k, X, hk => by
    have hk0 : k = 0 := by omega
    subst hk0
    rw [zero_nsmul]
    rfl
  | fuel + 1, k, X, hk => by
    by_cases h0 : k = 0
    · subst h0
      rw [zero_nsmul]
      rfl
    · have hdiv : k / 2 < 2 ^ fuel := by
        have h2 : (2 : Nat) ^ (fuel + 1) = 2 * 2 ^ fuel := by ring
        omega
      have ih := @ptD_mul P A B _ fuel (k / 2) (X + X) hdiv
      show (if k = 0 then none
        else
          let h := ptMulAux P A fuel (k / 2) (ptAdd P A (ptD X) (ptD X))
          if k % 2 = 1 then ptAdd P A (ptD X) h else h) = ptD (k • X)
      rw [if_neg h0]
      rw [← ptD_add X X, ih]
      have h2X : X + X = 2 • X := (two_nsmul X).symm
      by_cases hodd : k % 2 = 1
      · rw [if_pos hodd, ← ptD_add X ((k / 2) • (X + X))]
        congr 1
        rw [h2X, ← mul_nsmul X 2 (k / 2)]
        have hk2 : k = 1 + 2 * (k / 2) := by omega
        conv_rhs => rw [hk2]
        rw [add_nsmul, one_nsmul]
      · rw [if_neg hodd]
        congr 1
        rw [h2X, ← mul_nsmul X 2 (k / 2)]
        have hk2 : k = 2 * (k / 2) := by omega
        conv_rhs => rw [hk2]

/-- Fuel-free form of `ptD_mul`. -/
theorem ptMul_eq {P A B : Nat} [Fact P.Prime] (k : Nat) (X : (Wc P A B).Point) :
    ptMul P A k (ptD X) = ptD (k • X) := by
  refine @ptD_mul P A B _ (k + 1) k X ?_
  have h1 := Nat.lt_two_pow k
  have h2 : (2 : Nat) ^ k ≤ 2 ^ (k + 1) := Nat.pow_le_pow_right (by omega) (by omega)
  omega

/-- The executable curve membership test, as checked by the embedded parsers. -/
def NatOnCurve (P A B x y : Nat) : Prop :=
  y * y % P = (x * x * x + A * x + B) % P

/-- The executable curve test coincides with the Weierstrass equation. -/
theorem natOnCurve_iff {P A B : Nat} [NeZero P] (x y : Nat) :
    NatOnCurve P A B x y ↔ (Wc P A B).Equation (x : ZMod P) (y : ZMod P) := by
  have hmod : NatOnCurve P A B x y ↔
      ((y * y : Nat) : ZMod P) = ((x * x * x + A * x + B : Nat) : ZMod P) := by
    rw [ZMod.natCast_eq_natCast_iff]
    exact Iff.rfl
  rw [hmod, WeierstrassCurve.Affine.equation_iff]
  simp only [Wc]
  push_cast
  constructor
  · intro h
    linear_combination h
  · intro h
    linear_combination h

/-- Lift an executable on-curve pair to a Mathlib point (any point of a curve
with nonzero discriminant is nonsingular). -/
def liftPt {P A B : Nat} [NeZero P] (hD : (Wc P A B).Δ ≠ 0) (x y : Nat)
    (h : NatOnCurve P A B x y) : (Wc P A B).Point :=
  .some ((Wc P A B).nonsingular_of_Δ_ne_zero ((natOnCurve_iff x y).mp h) hD)

/-- `ptD` recovers the coordinates of a lifted point. -/
theorem ptD_liftPt {P A B : Nat} [NeZero P] (hD : (Wc P A B).Δ ≠ 0) (x y : Nat)
    (hx : x < P) (hy : y < P) (h : NatOnCurve P A B x y) :
    ptD (liftPt hD x y h) = some (x, y) := by
  show some (((x : ZMod P)).val, ((y : ZMod P)).val) = some (x, y)
  rw [ZMod.val_cast_of_lt hx, ZMod.val_cast_of_lt hy]

/-- Reducing a scalar modulo the order of a point. -/
theorem nsmul_mod {G : Type} [AddCommGroup G] (g : G) (n : Nat) (hord : n • g = 0)
    (a : Nat) : (a % n) • g = a • g := by
  conv_rhs => rw [← Nat.div_add_mod a n]
  rw [add_nsmul, mul_nsmul, hord]
  simp

/-- The coordinates of a `ptD` image are below the modulus. -/
theorem ptD_lt {P A B : Nat} [NeZero P] (X : (Wc P A B).Point) (x y : Nat)
    (h : ptD X = some (x, y)) : x < P ∧ y < P := by
  cases X with
  | zero => exact Option.noConfusion h
  | @some x₀ y₀ h₀ =>
    simp only [ptD, Option.some.injEq, Prod.mk.injEq] at h
    obtain ⟨rfl, rfl⟩ := h
    exact ⟨ZMod.val_lt x₀, ZMod.val_lt y₀⟩

/-- A `ptD` image satisfies the executable curve test. -/
theorem ptD_onCurve {P A B : Nat} [NeZero P] (X : (Wc P A B).Point) (x y : Nat)
    (h : ptD X = some (x, y)) : NatOnCurve P A B x y := by
  cases X with
  | zero => exact Option.noConfusion h
  | @some x₀ y₀ h₀ =>
    simp only [ptD, Option.some.injEq, Prod.mk.injEq] at h
    obtain ⟨rfl, rfl⟩ := h
    rw [natOnCurve_iff, cast_val, cast_val]
    exact h₀.1

end EC

namespace Elabs

/-- `natToBytesBE` produces exactly `len` bytes. -/
theorem natToBytesBE_length : ∀ (len x : Nat), (natToBytesBE len x).length = len
  | 0, _ => rfl
  | l + 1, x => by
    simp only [natToBytesBE, List.length_append, List.length_cons, List.length_nil,
      natToBytesBE_length l (x / 256)]

/-- `natToBytesBE` produces genuine bytes. -/
theorem natToBytesBE_lt : ∀ (len x : Nat), ∀ b ∈ natToBytesBE len x, b < 256
  | 0, _ => by simp [natToBytesBE]
  | l + 1, x => by
    simp only [natToBytesBE, List.mem_append, List.mem_singleton]
    intro b hb
    rcases hb with hb | hb
    · exact natToBytesBE_lt l (x / 256) b hb
    · subst hb
      exact Nat.mod_lt _ (by omega)

/-- Appending one byte to a big-endian number. -/
theorem bytesToNatBE_append_single (l : List Nat) (b : Nat) :
    bytesToNatBE (l ++ [b]) = bytesToNatBE l * 256 + b := by
  simp [bytesToNatBE, List.foldl_append]

/-- Big-endian serialization round trip. -/
theorem bytesToNatBE_natToBytesBE : ∀ (len x : Nat), x < 256 ^ len →
    bytesToNatBE (natToBytesBE len x) = x
  | 0, x, h => by
    simp only [natToBytesBE, bytesToNatBE, List.foldl_nil]
    omega
  | l + 1, x, h => by
    have hdiv : x / 256 < 256 ^ l := by
      have h2 : (256 : Nat) ^ (l + 1) = 256 ^ l * 256 := by ring
      omega
    simp only [natToBytesBE, bytesToNatBE_append_single,
      bytesToNatBE_natToBytesBE l (x / 256) hdiv]
    omega

/-- Taking the first half of a compact signature. -/
theorem take_natToBytesBE (r s : Nat) :
    (natToBytesBE 32 r ++ natToBytesBE 32 s).take 32 = natToBytesBE 32 r := by
  have h := List.take_left (natToBytesBE 32 r) (natToBytesBE 32 s)
  rw [natToBytesBE_length] at h
  exact h

/-- Dropping to the second half of a compact signature. -/
theorem drop_natToBytesBE (r s : Nat) :
    (natToBytesBE 32 r ++ natToBytesBE 32 s).drop 32 = natToBytesBE 32 s := by
  have h := List.drop_left (natToBytesBE 32 r) (natToBytesBE 32 s)
  rw [natToBytesBE_length] at h
  exact h

/-- 32 bytes cover 256-bit values. -/
theorem pow_256_32 : (256 : Nat) ^ 32 = 2 ^ 256 := by norm_num

end Elabs

open Elabs in
/-- The well-formedness facts about a curve that the ECDSA round-trip theorems
assume (all hold for secp256k1; all are decidable for a concrete small curve).
`ord` states that the group order annihilates the generator, computed by the
executable scalar multiplication. -/
structure GoodCurve (C : Secp.Curve) : Prop where
  pPrime : C.p.Prime
  nPrime : C.n.Prime
  n2 : 2 < C.n
  disc : (EC.Wc C.p C.a C.b).Δ ≠ 0
  gOn : EC.NatOnCurve C.p C.a C.b C.gx C.gy
  gxlt : C.gx < C.p
  gylt : C.gy < C.p
  ord : ptMul C.p C.a C.n (some (C.gx, C.gy)) = none
  plt2n : C.p < 2 * C.n
  psz : C.p < 2 ^ 256
  nsz : C.n < 2 ^ 256

namespace Secp

open Elabs

/-- Inversion of a successful `sign`: the stored key is a valid scalar and the
signing attempt succeeded on the Keccak digest of the message. -/
theorem sign_inversion (C : Curve) (msg : List Nat) (sk : ElabsCrypto.keys.PrivateKey)
    (k : Nat) (sig : ElabsCrypto.signer.RecSig)
    (hsig : ElabsCrypto.signer.sign C msg sk k = some (.ok sig)) :
    sk.bytes.length = 32 ∧ 0 < bytesToNatBE sk.bytes ∧ bytesToNatBE sk.bytes < C.n ∧
      signAttempt C (msgScalar C (keccak256 msg)) (bytesToNatBE sk.bytes) k =
        some (sig.r, sig.s, sig.recid) := by
  have hmsg : Message.fromSlice (keccak256 msg) = .ok (keccak256 msg) := by
    simp [Message.fromSlice, keccak256_length]
  simp only [ElabsCrypto.signer.sign, hmsg] at hsig
  cases hvk : ElabsCrypto.keys.PrivateKey.to_secp256k1 C sk with
  | error e => rw [hvk] at hsig; cases hsig
  | ok skb =>
    rw [hvk] at hsig
    have hfs : SecretKey.fromSlice C sk.bytes = .ok skb := by
      rw [ElabsCrypto.keys.PrivateKey.to_secp256k1] at hvk
      cases hq : SecretKey.fromSlice C sk.bytes with
      | error e => rw [hq] at hvk; cases hvk
      | ok v => rw [hq] at hvk; injection hvk with hvk; rw [hvk]
    have hv : sk.bytes.length = 32 ∧ 0 < bytesToNatBE sk.bytes ∧
        bytesToNatBE sk.bytes < C.n ∧ skb = sk.bytes := by
      rw [SecretKey.fromSlice] at hfs
      split at hfs
      · next hc =>
        injection hfs with hfs
        exact ⟨hc.1, hc.2.1, hc.2.2, hfs.symm⟩
      · cases hfs
    obtain ⟨h32, h0, hn, rfl⟩ := hv
    dsimp only at hsig
    cases hatt : signAttempt C (msgScalar C (keccak256 msg)) (bytesToNatBE sk.bytes) k with
    | none => rw [hatt] at hsig; cases hsig
    | some rsr =>
      rw [hatt] at hsig
      obtain ⟨r, s, recid⟩ := rsr
      simp only [Option.some.injEq] at hsig
      injection hsig with hsig
      refine ⟨h32, h0, hn, ?_⟩
      rw [← hsig]

/-- Inversion of a successful signing attempt: the nonce point, `r`, the raw
`s`, and the low-`s` normalisation. -/
theorem signAttempt_inversion (C : Curve) (z d k r s recid : Nat)
    (h : signAttempt C z d k = some (r, s, recid)) :
    ∃ xR yR, ptMul C.p C.a k (some (C.gx, C.gy)) = some (xR, yR) ∧
      r = xR % C.n ∧ r ≠ 0 ∧
      (let s0 := invMod C.n k * ((r * d + z) % C.n) % C.n
       let recid0 := (if C.n ≤ xR then 2 else 0) + (if yR % 2 = 1 then 1 else 0)
       s0 ≠ 0 ∧
        ((¬ C.n / 2 < s0 ∧ s = s0 ∧ recid = recid0) ∨
          (C.n / 2 < s0 ∧ s = negMod C.n s0 ∧ recid = recid0 ^^^ 1))) := by
  rw [signAttempt] at h
  cases hmul : ptMul C.p C.a k (some (C.gx, C.gy)) with
  | none => rw [hmul] at h; cases h
  | some xy =>
    rw [hmul] at h
    obtain ⟨xR, yR⟩ := xy
    refine ⟨xR, yR, rfl, ?_⟩
    simp only at h
    split at h
    · cases h
    · next hr0 =>
      split at h
      · cases h
      · next hs0 =>
        split at h
        · next hhigh =>
          simp only [Option.some.injEq, Prod.mk.injEq] at h
          obtain ⟨h1, h2, h3⟩ := h
          subst h1
          subst h2
          subst h3
          exact ⟨rfl, hr0, hs0, Or.inr ⟨hhigh, rfl, rfl⟩⟩
        · next hhigh =>
          simp only [Option.some.injEq, Prod.mk.injEq] at h
          obtain ⟨h1, h2, h3⟩ := h
          subst h1
          subst h2
          subst h3
          exact ⟨rfl, hr0, hs0, Or.inl ⟨hhigh, rfl, rfl⟩⟩

end Secp

namespace EC

open Elabs

/-- The lifted generator of a good curve. -/
def Gpt (C : Secp.Curve) (h : GoodCurve C) : (Wc C.p C.a C.b).Point :=
  haveI : NeZero C.p := ⟨h.pPrime.ne_zero⟩
  liftPt h.disc C.gx C.gy h.gOn

/-- The lifted generator projects back to the generator coordinates. -/
theorem Gpt_ptD (C : Secp.Curve) (h : GoodCurve C) :
    ptD (Gpt C h) = some (C.gx, C.gy) := by
  haveI : NeZero C.p := ⟨h.pPrime.ne_zero⟩
  exact ptD_liftPt h.disc C.gx C.gy h.gxlt h.gylt h.gOn

/-- Executable multiples of the generator are multiples of the lifted point. -/
theorem Gpt_mul (C : Secp.Curve) [Fact C.p.Prime] (h : GoodCurve C) (m : Nat) :
    ptMul C.p C.a m (some (C.gx, C.gy)) = ptD (m • Gpt C h) := by
  rw [← Gpt_ptD C h, ptMul_eq]

/-- The group order annihilates the lifted generator. -/
theorem Gpt_ord (C : Secp.Curve) [Fact C.p.Prime] (h : GoodCurve C) : C.n • Gpt C h = 0 := by
  refine ptD_eq_none _ ?_
  rw [← ptMul_eq, Gpt_ptD]
  exact h.ord

/-- Scalars congruent modulo the order act identically on the generator. -/
theorem smul_cast_eq (C : Secp.Curve) [Fact C.p.Prime] (h : GoodCurve C) (a b : Nat)
    (hc : (a : ZMod C.n) = (b : ZMod C.n)) : a • Gpt C h = b • Gpt C h := by
  rw [← nsmul_mod (Gpt C h) C.n (Gpt_ord C h) a, ← nsmul_mod (Gpt C h) C.n (Gpt_ord C h) b]
  congr 1
  exact (ZMod.natCast_eq_natCast_iff a b C.n).mp hc

/-- A nat scalar acts as the value of its residue. -/
theorem smul_val_cast (C : Secp.Curve) [Fact C.p.Prime] (h : GoodCurve C) (a : Nat) :
    a • Gpt C h = ((a : ZMod C.n)).val • Gpt C h := by
  haveI : NeZero C.n := ⟨h.nPrime.ne_zero⟩
  rw [ZMod.val_natCast, nsmul_mod (Gpt C h) C.n (Gpt_ord C h) a]

/-- Nonzero residues act without killing a nonzero generator (the order is
prime). -/
theorem smul_ne_zero_of_good (C : Secp.Curve) [Fact C.p.Prime] (h : GoodCurve C) (a : Nat)
    (hG0 : Gpt C h ≠ 0) (ha : ((a : ZMod C.n)) ≠ 0) : a • Gpt C h ≠ 0 := by
  haveI : NeZero C.n := ⟨h.nPrime.ne_zero⟩
  intro hc
  have hdvd : addOrderOf (Gpt C h) ∣ C.n := addOrderOf_dvd_of_nsmul_eq_zero (Gpt_ord C h)
  have hone : addOrderOf (Gpt C h) ≠ 1 := fun h1 =>
    hG0 (AddMonoid.addOrderOf_eq_one_iff.mp h1)
  have hn : addOrderOf (Gpt C h) = C.n :=
    ((Nat.Prime.eq_one_or_self_of_dvd h.nPrime _ hdvd).resolve_left hone)
  have hdvda : addOrderOf (Gpt C h) ∣ a := addOrderOf_dvd_iff_nsmul_eq_zero.mpr hc
  rw [hn] at hdvda
  exact ha ((ZMod.natCast_zmod_eq_zero_iff_dvd a C.n).mpr hdvda)

/-- The negation of a residue acts as the group negation on generator
multiples. -/
theorem smul_neg_val (C : Secp.Curve) [Fact C.p.Prime] (h : GoodCurve C) (a : ZMod C.n) :
    ((-a).val) • Gpt C h = -(a.val • Gpt C h) := by
  haveI : NeZero C.n := ⟨h.nPrime.ne_zero⟩
  by_cases h0 : a = 0
  · subst h0
    simp [zero_nsmul]
  · rw [ZMod.neg_val, if_neg h0, sub_nsmul _ (le_of_lt (ZMod.val_lt a)), Gpt_ord C h,
      zero_add]

/-- `ptD` of a negated point negates the `y` coordinate modulo `p`. -/
theorem ptD_neg {P A B : Nat} [Fact P.Prime] (X : (Wc P A B).Point) (x y : Nat)
    (hX : ptD X = some (x, y)) : ptD (-X) = some (x, negMod P y) := by
  haveI : NeZero P := ⟨(Fact.out : P.Prime).ne_zero⟩
  have hP : 0 < P := Nat.pos_of_ne_zero (NeZero.ne P)
  cases X with
  | zero => exact Option.noConfusion hX
  | @some x₀ y₀ h₀ =>
    simp only [ptD, Option.some.injEq, Prod.mk.injEq] at hX
    obtain ⟨rfl, rfl⟩ := hX
    rw [WeierstrassCurve.Affine.Point.neg_some]
    show some (x₀.val, ((Wc P A B).negY x₀ y₀).val) = some (x₀.val, negMod P y₀.val)
    have hnegY : (Wc P A B).negY x₀ y₀ = -y₀ := by
      simp [Wc, WeierstrassCurve.Affine.negY]
    rw [hnegY]
    refine congrArg some (Prod.ext rfl ?_)
    refine val_of_cast_eq _ _ ?_ (negMod_lt _ hP)
    rw [negMod_cast _ (le_of_lt (ZMod.val_lt y₀)), cast_val]

end EC

namespace Secp

open Elabs

/-- Parsing a serialized affine point recovers it, when the coordinates are
reduced and the point is on the curve. -/
theorem parse_serialize (C : Curve) (x y : Nat) (hx : x < C.p) (hy : y < C.p)
    (hp : C.p < 2 ^ 256) (hc : EC.NatOnCurve C.p C.a C.b x y) :
    PublicKey.parse C (serializeUncompressed (some (x, y))) = .ok (x, y) := by
  have hx256 : x < 256 ^ 32 := by rw [pow_256_32]; omega
  have hy256 : y < 256 ^ 32 := by rw [pow_256_32]; omega
  have hlen : (serializeUncompressed (some (x, y))).length = 65 := by
    simp [serializeUncompressed, natToBytesBE_length]
  rw [PublicKey.parse, if_pos hlen]
  have hdrop1 : (serializeUncompressed (some (x, y))).drop 1 =
      natToBytesBE 32 x ++ natToBytesBE 32 y := rfl
  have hhead : (serializeUncompressed (some (x, y))).headD 0 = 4 := rfl
  have hxv : bytesToNatBE (((serializeUncompressed (some (x, y))).drop 1).take 32) = x := by
    rw [hdrop1, take_natToBytesBE, bytesToNatBE_natToBytesBE 32 x hx256]
  have hyv : bytesToNatBE ((serializeUncompressed (some (x, y))).drop 33) = y := by
    have h33 : (serializeUncompressed (some (x, y))).drop 33 =
        (natToBytesBE 32 x ++ natToBytesBE 32 y).drop 32 := by
      rw [show (33 : Nat) = 1 + 32 from rfl, ← List.drop_drop, hdrop1]
    rw [h33, drop_natToBytesBE, bytesToNatBE_natToBytesBE 32 y hy256]
  rw [hhead, hxv, hyv]
  rw [if_pos]
  exact ⟨Or.inl rfl, hx, hy, hc⟩

end Secp

open Elabs in
/-- C2: for every message and every validly-constructed private key, verifying
the compact 64-byte serialization of the signature produced by `sign` against
the same message and the public key derived from the key returns `Ok(true)`,
regardless of the nonce drawn internally during signing (the nonce is
universally quantified; the hypothesis only demands that the signing attempt
it feeds succeeded, which is exactly the library's internal retry condition).
Stated over any curve satisfying the `GoodCurve` well-formedness facts, which
the secp256k1 constants satisfy. -/
theorem c2_sign_verify_roundtrip (C : Secp.Curve) (good : GoodCurve C)
    (msg : List Nat) (sk : ElabsCrypto.keys.PrivateKey) (k : Nat)
    (sig : ElabsCrypto.signer.RecSig) (pk : ElabsCrypto.keys.PublicKey)
    (hsig : ElabsCrypto.signer.sign C msg sk k = some (.ok sig))
    (hpk : ElabsCrypto.keys.PrivateKey.to_public C sk = .ok pk) :
    ElabsCrypto.signer.verify C msg (Secp.serializeCompact sig.r sig.s) pk =
      some (.ok true) := by
  haveI : Fact C.p.Prime := ⟨good.pPrime⟩
  haveI : Fact C.n.Prime := ⟨good.nPrime⟩
  haveI : NeZero C.n := ⟨good.nPrime.ne_zero⟩
  haveI : NeZero C.p := ⟨good.pPrime.ne_zero⟩
  have hnpos : 0 < C.n := by have := good.n2; omega
  have hodd : C.n % 2 = 1 := good.nPrime.eq_two_or_odd.resolve_left (by have := good.n2; omega)
  obtain ⟨h32, hd0, hdn, hatt⟩ := Secp.sign_inversion C msg sk k sig hsig
  obtain ⟨xR, yR, hmul, hr, hrne, hrest⟩ :=
    Secp.signAttempt_inversion C (Secp.msgScalar C (keccak256 msg)) (bytesToNatBE sk.bytes)
      k sig.r sig.s sig.recid hatt
  obtain ⟨hs0ne, hbranch⟩ := hrest
  -- generator facts
  have hG : EC.ptD (EC.Gpt C good) = some (C.gx, C.gy) := EC.Gpt_ptD C good
  have hkG : EC.ptD (k • EC.Gpt C good) = some (xR, yR) := by
    rw [EC.Gpt_mul C good k] at hmul
    exact hmul
  have hkGne : k • EC.Gpt C good ≠ 0 := by
    intro hc
    rw [hc] at hkG
    exact Option.noConfusion hkG
  have hGne : EC.Gpt C good ≠ 0 := by
    intro hc
    rw [hc] at hG
    exact Option.noConfusion hG
  have hkappa : ((k : ZMod C.n)) ≠ 0 := by
    intro hc
    apply hkGne
    rw [EC.smul_val_cast C good k, hc, ZMod.val_zero, zero_nsmul]
  have hxRp : xR < C.p ∧ yR < C.p := EC.ptD_lt (k • EC.Gpt C good) xR yR hkG
  have hrlt : sig.r < C.n := by rw [hr]; exact Nat.mod_lt _ hnpos
  have hs0lt : invMod C.n k * ((sig.r * bytesToNatBE sk.bytes +
      Secp.msgScalar C (keccak256 msg)) % C.n) % C.n < C.n := Nat.mod_lt _ hnpos
  -- the cast of the raw s
  have hs0cast : ((invMod C.n k * ((sig.r * bytesToNatBE sk.bytes +
      Secp.msgScalar C (keccak256 msg)) % C.n) % C.n : Nat) : ZMod C.n) =
      (k : ZMod C.n)⁻¹ * ((sig.r * bytesToNatBE sk.bytes +
        Secp.msgScalar C (keccak256 msg) : Nat) : ZMod C.n) := by
    rw [ZMod.natCast_mod, Nat.cast_mul, EC.invMod_cast k hkappa, ZMod.natCast_mod]
  have hwne : ((sig.r * bytesToNatBE sk.bytes +
      Secp.msgScalar C (keccak256 msg) : Nat) : ZMod C.n) ≠ 0 := by
    intro hc
    apply hs0ne
    have h1 : ((invMod C.n k * ((sig.r * bytesToNatBE sk.bytes +
        Secp.msgScalar C (keccak256 msg)) % C.n) % C.n : Nat) : ZMod C.n) = 0 := by
      rw [hs0cast, hc, mul_zero]
    have h2 := congrArg ZMod.val h1
    rw [ZMod.val_natCast, ZMod.val_zero, Nat.mod_eq_of_lt hs0lt] at h2
    exact h2
  -- branch facts: s bounds and the cast of s
  have hbr : sig.s < C.n ∧ sig.s ≠ 0 ∧ ¬ (C.n / 2 < sig.s) ∧
      (((sig.s : Nat) : ZMod C.n) = (k : ZMod C.n)⁻¹ * ((sig.r * bytesToNatBE sk.bytes +
          Secp.msgScalar C (keccak256 msg) : Nat) : ZMod C.n) ∨
        ((sig.s : Nat) : ZMod C.n) = -((k : ZMod C.n)⁻¹ *
          ((sig.r * bytesToNatBE sk.bytes +
            Secp.msgScalar C (keccak256 msg) : Nat) : ZMod C.n))) := by
    rcases hbranch with ⟨hlow, hseq, _⟩ | ⟨hhigh, hseq, _⟩
    · rw [hseq]
      exact ⟨hs0lt, hs0ne, hlow, Or.inl hs0cast⟩
    · have hs0pos : 0 < invMod C.n k * ((sig.r * bytesToNatBE sk.bytes +
          Secp.msgScalar C (keccak256 msg)) % C.n) % C.n := Nat.pos_of_ne_zero hs0ne
      have hseq2 : sig.s = C.n - invMod C.n k * ((sig.r * bytesToNatBE sk.bytes +
          Secp.msgScalar C (keccak256 msg)) % C.n) % C.n := by
        rw [hseq, negMod, Nat.mod_eq_of_lt (by omega)]
      refine ⟨by omega, by omega, by omega, Or.inr ?_⟩
      rw [hseq2, Nat.cast_sub (le_of_lt hs0lt), ZMod.natCast_self, zero_sub, hs0cast]
  obtain ⟨hslt, hsne, hnothigh, hscast⟩ := hbr
  -- public key bytes
  have hvk : ElabsCrypto.keys.PrivateKey.to_secp256k1 C sk = .ok sk.bytes := by
    rw [ElabsCrypto.keys.PrivateKey.to_secp256k1, Secp.SecretKey.fromSlice,
      if_pos ⟨h32, hd0, hdn⟩]
  have hpkbytes : pk.bytes =
      Secp.serializeUncompressed (Secp.pubPoint C (bytesToNatBE sk.bytes)) := by
    rw [ElabsCrypto.keys.PrivateKey.to_public, hvk] at hpk
    simp only at hpk
    injection hpk with hpk
    rw [← hpk]
    rfl
  have hdne : ((bytesToNatBE sk.bytes : Nat) : ZMod C.n) ≠ 0 := by
    intro hc
    have h2 := congrArg ZMod.val hc
    rw [ZMod.val_natCast, ZMod.val_zero, Nat.mod_eq_of_lt hdn] at h2
    omega
  have hdGne : bytesToNatBE sk.bytes • EC.Gpt C good ≠ 0 :=
    EC.smul_ne_zero_of_good C good _ hGne hdne
  obtain ⟨Qx, Qy, hq⟩ : ∃ Qx Qy,
      EC.ptD (bytesToNatBE sk.bytes • EC.Gpt C good) = some (Qx, Qy) := by
    cases hq : EC.ptD (bytesToNatBE sk.bytes • EC.Gpt C good) with
    | none => exact absurd (EC.ptD_eq_none _ hq) hdGne
    | some q =>
      obtain ⟨qx, qy⟩ := q
      exact ⟨qx, qy, rfl⟩
  have hpub : Secp.pubPoint C (bytesToNatBE sk.bytes) = some (Qx, Qy) := by
    rw [Secp.pubPoint, EC.Gpt_mul C good]
    exact hq
  have hQlt := EC.ptD_lt _ Qx Qy hq
  have hQon := EC.ptD_onCurve _ Qx Qy hq
  have hparse : Secp.PublicKey.parse C pk.bytes = .ok (Qx, Qy) := by
    rw [hpkbytes, hpub]
    exact Secp.parse_serialize C Qx Qy hQlt.1 hQlt.2 good.psz hQon
  -- parsing the compact signature
  have hr256 : sig.r < 256 ^ 32 := by
    rw [pow_256_32]
    have := good.nsz
    omega
  have hs256 : sig.s < 256 ^ 32 := by
    rw [pow_256_32]
    have := good.nsz
    omega
  have hcompact : Secp.Signature.fromCompact C (Secp.serializeCompact sig.r sig.s) =
      .ok (sig.r, sig.s) := by
    rw [Secp.serializeCompact, Secp.Signature.fromCompact]
    rw [if_pos (by simp [natToBytesBE_length])]
    rw [take_natToBytesBE, drop_natToBytesBE, bytesToNatBE_natToBytesBE 32 sig.r hr256,
      bytesToNatBE_natToBytesBE 32 sig.s hs256]
    rw [if_pos ⟨hrlt, hslt⟩]
  -- unfold verify
  have hmsgok : Secp.Message.fromSlice (keccak256 msg) = .ok (keccak256 msg) := by
    simp [Secp.Message.fromSlice, keccak256_length]
  have hto : ElabsCrypto.keys.PublicKey.to_secp256k1 C pk = .ok (Qx, Qy) := by
    rw [ElabsCrypto.keys.PublicKey.to_secp256k1, hparse]
  simp only [ElabsCrypto.signer.verify, hmsgok, hcompact, hto]
  suffices hvc : Secp.verifyCore C (Secp.msgScalar C (keccak256 msg)) sig.r sig.s (Qx, Qy) =
      true by rw [hvc]
  rw [Secp.verifyCore, if_neg hnothigh, if_neg (by push_neg; exact ⟨hrne, hsne⟩)]
  dsimp only
  -- the verification point
  have hsigscast : ((sig.s : Nat) : ZMod C.n) ≠ 0 := by
    intro hc
    have h2 := congrArg ZMod.val hc
    rw [ZMod.val_natCast, ZMod.val_zero, Nat.mod_eq_of_lt hslt] at h2
    exact hsne h2
  have hu2Q : ptMul C.p C.a (invMod C.n sig.s * sig.r % C.n) (some (Qx, Qy)) =
      EC.ptD ((invMod C.n sig.s * sig.r % C.n) • (bytesToNatBE sk.bytes • EC.Gpt C good)) := by
    rw [← hq, EC.ptMul_eq]
  have hu1G : ptMul C.p C.a (invMod C.n sig.s * Secp.msgScalar C (keccak256 msg) % C.n)
      (some (C.gx, C.gy)) =
      EC.ptD ((invMod C.n sig.s * Secp.msgScalar C (keccak256 msg) % C.n) • EC.Gpt C good) :=
    EC.Gpt_mul C good _
  rw [hu2Q, hu1G, ← EC.ptD_add]
  -- fold the sum into a single multiple of the generator
  rw [← mul_nsmul (EC.Gpt C good) (bytesToNatBE sk.bytes) (invMod C.n sig.s * sig.r % C.n),
    ← add_nsmul]
  -- identify the multiple modulo n
  have hkey : ((bytesToNatBE sk.bytes * (invMod C.n sig.s * sig.r % C.n) +
      invMod C.n sig.s * Secp.msgScalar C (keccak256 msg) % C.n : Nat) : ZMod C.n) =
      ((sig.s : Nat) : ZMod C.n)⁻¹ * ((sig.r * bytesToNatBE sk.bytes +
        Secp.msgScalar C (keccak256 msg) : Nat) : ZMod C.n) := by
    push_cast [ZMod.natCast_mod]
    rw [EC.invMod_cast sig.s hsigscast]
    ring
  rcases hscast with hlowc | hhighc
  · -- low s: the multiple is k itself
    have hfin : ((bytesToNatBE sk.bytes * (invMod C.n sig.s * sig.r % C.n) +
        invMod C.n sig.s * Secp.msgScalar C (keccak256 msg) % C.n : Nat) : ZMod C.n) =
        ((k : Nat) : ZMod C.n) := by
      rw [hkey, hlowc, mul_inv_rev, inv_inv]
      field_simp
      have hwne2 : ((sig.r : ZMod C.n) * ((bytesToNatBE sk.bytes : Nat) : ZMod C.n) +
          ((Secp.msgScalar C (keccak256 msg) : Nat) : ZMod C.n)) ≠ 0 := by
        intro hc
        apply hwne
        push_cast
        exact hc
      rw [mul_div_assoc, div_self hwne2, mul_one]
    rw [EC.smul_cast_eq C good _ k hfin, hkG]
    simp only [decide_eq_true_eq]
    by_cases hover : C.n ≤ xR
    · have hxmod : xR % C.n = xR - C.n := by
        rw [Nat.mod_eq_sub_mod hover, Nat.mod_eq_of_lt (by have := good.plt2n; omega)]
      right
      constructor
      · have := good.plt2n
        omega
      · omega
    · left
      rw [hr, Nat.mod_eq_of_lt (by omega)]
  · -- high s: the multiple is -k
    have hfin : ((bytesToNatBE sk.bytes * (invMod C.n sig.s * sig.r % C.n) +
        invMod C.n sig.s * Secp.msgScalar C (keccak256 msg) % C.n : Nat) : ZMod C.n) =
        (((- (k : ZMod C.n)).val : Nat) : ZMod C.n) := by
      rw [hkey, hhighc, EC.cast_val]
      rw [inv_neg, mul_inv_rev, inv_inv]
      field_simp
      have hwne2 : ((sig.r : ZMod C.n) * ((bytesToNatBE sk.bytes : Nat) : ZMod C.n) +
          ((Secp.msgScalar C (keccak256 msg) : Nat) : ZMod C.n)) ≠ 0 := by
        intro hc
        apply hwne
        push_cast
        exact hc
      rw [neg_div, mul_div_assoc, div_self hwne2, mul_one]
    rw [EC.smul_cast_eq C good _ _ hfin]
    rw [EC.smul_neg_val C good (k : ZMod C.n)]
    rw [← EC.smul_val_cast C good k]
    rw [EC.ptD_neg (k • EC.Gpt C good) xR yR hkG]
    simp only [decide_eq_true_eq]
    by_cases hover : C.n ≤ xR
    · have hxmod : xR % C.n = xR - C.n := by
        rw [Nat.mod_eq_sub_mod hover, Nat.mod_eq_of_lt (by have := good.plt2n; omega)]
      right
      constructor
      · have := good.plt2n
        omega
      · omega
    · left
      rw [hr, Nat.mod_eq_of_lt (by omega)]

namespace EC

open Elabs

/-- Natural multiples commute with negation in an additive commutative
group. -/
theorem nsmul_neg_eq {G : Type} [AddCommGroup G] (n : Nat) (g : G) :
    n • (-g) = -(n • g) := by
  induction n with
  | zero => simp
  | succ m ih => rw [succ_nsmul, succ_nsmul, ih, neg_add]

/-- Squaring is unchanged by modular negation. -/
theorem negMod_sq (P : Nat) [NeZero P] (y : Nat) (hy : y ≤ P) :
    negMod P y * negMod P y % P = y * y % P := by
  have hppos : 0 < P := Nat.pos_of_ne_zero (NeZero.ne P)
  have hc : ((negMod P y * negMod P y % P : Nat) : ZMod P) =
      ((y * y % P : Nat) : ZMod P) := by
    rw [ZMod.natCast_mod, ZMod.natCast_mod, Nat.cast_mul, Nat.cast_mul, negMod_cast y hy]
    ring
  have h1 := (ZMod.natCast_eq_natCast_iff _ _ _).mp hc
  have h4 : negMod P y * negMod P y % P % P = y * y % P % P := h1
  rw [Nat.mod_eq_of_lt (Nat.mod_lt _ hppos), Nat.mod_eq_of_lt (Nat.mod_lt _ hppos)] at h4
  exact h4

/-- Modular negation is an involution on reduced values. -/
theorem negMod_negMod (P y : Nat) (hy : y < P) : negMod P (negMod P y) = y := by
  rcases Nat.eq_zero_or_pos y with rfl | hpos
  · rw [negMod, negMod, Nat.sub_zero, Nat.mod_self, Nat.sub_zero, Nat.mod_self]
  · rw [negMod, negMod, Nat.mod_eq_of_lt (show P - y < P by omega),
      Nat.mod_eq_of_lt (show P - (P - y) < P by omega)]
    omega

/-- For a prime `p ≡ 3 (mod 4)`, the `(p+1)/4`-power of `y² mod p` (the
library's square-root path in point recovery) lands on `y` or on its modular
negation. -/
theorem recover_sqrt (P : Nat) [Fact P.Prime] (hp4 : P % 4 = 3) (y : Nat) (hy : y < P) :
    powMod P P (y * y % P) ((P + 1) / 4) = y ∨
      powMod P P (y * y % P) ((P + 1) / 4) = negMod P y := by
  haveI : NeZero P := ⟨(Fact.out : P.Prime).ne_zero⟩
  have hppos : 0 < P := Nat.pos_of_ne_zero (NeZero.ne P)
  obtain ⟨m, hm⟩ : ∃ m, P + 1 = 4 * m := ⟨(P + 1) / 4, by omega⟩
  have hm1 : 1 ≤ m := by omega
  have hq4 : (P + 1) / 4 = m := by omega
  have hexp : (P + 1) / 4 < 2 ^ P := by
    have := Nat.lt_two_pow P
    omega
  have hcast : ((powMod P P (y * y % P) ((P + 1) / 4) : Nat) : ZMod P) =
      ((y : ZMod P) * y) ^ ((P + 1) / 4) := by
    rw [@powMod_cast P _ P (y * y % P) ((P + 1) / 4) hexp, ZMod.natCast_mod, Nat.cast_mul]
  have hlt := powMod_lt P hppos P (y * y % P) ((P + 1) / 4)
  by_cases h0 : (y : ZMod P) = 0
  · left
    have hy0 : y = 0 := by
      have hv := val_of_cast_eq y 0 h0 hy
      rw [ZMod.val_zero] at hv
      omega
    subst hy0
    have hz : ((powMod P P (0 * 0 % P) ((P + 1) / 4) : Nat) : ZMod P) = 0 := by
      rw [hcast, hq4, Nat.cast_zero, mul_zero, zero_pow (by omega)]
    have hv := val_of_cast_eq _ 0 hz hlt
    rw [ZMod.val_zero] at hv
    omega
  · have hfe : ((y : ZMod P) * y) ^ ((P + 1) / 4) = (y : ZMod P) ^ (2 * m) := by
      rw [hq4, ← pow_two, ← pow_mul]
    have h2m : (y : ZMod P) ^ (2 * m) = (y : ZMod P) ^ (2 * m - 1) * (y : ZMod P) := by
      rw [← pow_succ]
      congr 1
      omega
    have ht2 : ((y : ZMod P) ^ (2 * m - 1)) * ((y : ZMod P) ^ (2 * m - 1)) = 1 := by
      rw [← pow_add]
      have he : 2 * m - 1 + (2 * m - 1) = P - 1 := by omega
      rw [he]
      exact ZMod.pow_card_sub_one_eq_one h0
    rcases mul_self_eq_one_iff.mp ht2 with h1 | h1
    · left
      have hcy : ((powMod P P (y * y % P) ((P + 1) / 4) : Nat) : ZMod P) = (y : ZMod P) := by
        rw [hcast, hfe, h2m, h1, one_mul]
      have hv := val_of_cast_eq _ _ hcy hlt
      rw [ZMod.val_cast_of_lt hy] at hv
      omega
    · right
      have hcy : ((powMod P P (y * y % P) ((P + 1) / 4) : Nat) : ZMod P) =
          ((negMod P y : Nat) : ZMod P) := by
        rw [hcast, hfe, h2m, h1, negMod_cast y (le_of_lt hy)]
        ring
      have hv := val_of_cast_eq _ _ hcy hlt
      rw [ZMod.val_cast_of_lt (negMod_lt y hppos)] at hv
      omega

end EC

set_option maxHeartbeats 3200000 in
open Elabs in
/-- C3: for every message and every validly-constructed private key, feeding
the Keccak-256 digest of the message, the compact serialization of the
signature produced by `sign`, and its recovery id to `ecrecover` returns `Ok`
of exactly the serialized public key derived from the private key (the digest
is consumed as passed, not hashed again; the nonce is universally quantified,
conditioned only on the signing attempt succeeding, which is the library's
internal retry condition). Stated over any `GoodCurve` whose prime is
`3 mod 4` — as secp256k1's is — matching the library's square-root-based
point recovery. -/
theorem c3_ecrecover_roundtrip (C : Secp.Curve) (good : GoodCurve C)
    (hp4 : C.p % 4 = 3)
    (msg : List Nat) (sk : ElabsCrypto.keys.PrivateKey) (k : Nat)
    (sig : ElabsCrypto.signer.RecSig) (pk : ElabsCrypto.keys.PublicKey)
    (hsig : ElabsCrypto.signer.sign C msg sk k = some (.ok sig))
    (hpk : ElabsCrypto.keys.PrivateKey.to_public C sk = .ok pk) :
    ElabsCrypto.signer.ecrecover C (keccak256 msg) (Secp.serializeCompact sig.r sig.s)
      sig.recid = .ok pk.bytes := by
  haveI : Fact C.p.Prime := ⟨good.pPrime⟩
  haveI : Fact C.n.Prime := ⟨good.nPrime⟩
  haveI : NeZero C.n := ⟨good.nPrime.ne_zero⟩
  haveI : NeZero C.p := ⟨good.pPrime.ne_zero⟩
  have hnpos : 0 < C.n := by have := good.n2; omega
  have hppos : 0 < C.p := Nat.pos_of_ne_zero (NeZero.ne C.p)
  have hpodd : C.p % 2 = 1 := by omega
  obtain ⟨h32, hd0, hdn, hatt⟩ := Secp.sign_inversion C msg sk k sig hsig
  obtain ⟨xR, yR, hmul, hr, hrne, hrest⟩ :=
    Secp.signAttempt_inversion C (Secp.msgScalar C (keccak256 msg)) (bytesToNatBE sk.bytes)
      k sig.r sig.s sig.recid hatt
  obtain ⟨hs0ne, hbranch⟩ := hrest
  -- generator facts
  have hG : EC.ptD (EC.Gpt C good) = some (C.gx, C.gy) := EC.Gpt_ptD C good
  have hkG : EC.ptD (k • EC.Gpt C good) = some (xR, yR) := by
    rw [EC.Gpt_mul C good k] at hmul
    exact hmul
  have hkGne : k • EC.Gpt C good ≠ 0 := by
    intro hc
    rw [hc] at hkG
    exact Option.noConfusion hkG
  have hGne : EC.Gpt C good ≠ 0 := by
    intro hc
    rw [hc] at hG
    exact Option.noConfusion hG
  have hkappa : ((k : ZMod C.n)) ≠ 0 := by
    intro hc
    apply hkGne
    rw [EC.smul_val_cast C good k, hc, ZMod.val_zero, zero_nsmul]
  have hxRp : xR < C.p ∧ yR < C.p := EC.ptD_lt (k • EC.Gpt C good) xR yR hkG
  have hrlt : sig.r < C.n := by rw [hr]; exact Nat.mod_lt _ hnpos
  have hrcast : ((sig.r : Nat) : ZMod C.n) ≠ 0 := by
    intro hc
    have h2 := congrArg ZMod.val hc
    rw [ZMod.val_natCast, ZMod.val_zero, Nat.mod_eq_of_lt hrlt] at h2
    exact hrne h2
  have hs0lt : invMod C.n k * ((sig.r * bytesToNatBE sk.bytes +
      Secp.msgScalar C (keccak256 msg)) % C.n) % C.n < C.n := Nat.mod_lt _ hnpos
  have hs0cast : ((invMod C.n k * ((sig.r * bytesToNatBE sk.bytes +
      Secp.msgScalar C (keccak256 msg)) % C.n) % C.n : Nat) : ZMod C.n) =
      (k : ZMod C.n)⁻¹ * ((sig.r * bytesToNatBE sk.bytes +
        Secp.msgScalar C (keccak256 msg) : Nat) : ZMod C.n) := by
    rw [ZMod.natCast_mod, Nat.cast_mul, EC.invMod_cast k hkappa, ZMod.natCast_mod]
  have hsne : sig.s ≠ 0 := by
    rcases hbranch with ⟨-, hseq, -⟩ | ⟨-, hseq, -⟩
    · rw [hseq]; exact hs0ne
    · have hpos := Nat.pos_of_ne_zero hs0ne
      rw [hseq, negMod, Nat.mod_eq_of_lt (by omega)]
      omega
  have hslt : sig.s < C.n := by
    rcases hbranch with ⟨-, hseq, -⟩ | ⟨-, hseq, -⟩
    · rw [hseq]; exact hs0lt
    · rw [hseq]
      exact EC.negMod_lt _ hnpos
  -- public key bytes
  have hvk : ElabsCrypto.keys.PrivateKey.to_secp256k1 C sk = .ok sk.bytes := by
    rw [ElabsCrypto.keys.PrivateKey.to_secp256k1, Secp.SecretKey.fromSlice,
      if_pos ⟨h32, hd0, hdn⟩]
  have hpkbytes : pk.bytes =
      Secp.serializeUncompressed (Secp.pubPoint C (bytesToNatBE sk.bytes)) := by
    rw [ElabsCrypto.keys.PrivateKey.to_public, hvk] at hpk
    simp only at hpk
    injection hpk with hpk
    rw [← hpk]
    rfl
  have hdne : ((bytesToNatBE sk.bytes : Nat) : ZMod C.n) ≠ 0 := by
    intro hc
    have h2 := congrArg ZMod.val hc
    rw [ZMod.val_natCast, ZMod.val_zero, Nat.mod_eq_of_lt hdn] at h2
    omega
  have hdGne : bytesToNatBE sk.bytes • EC.Gpt C good ≠ 0 :=
    EC.smul_ne_zero_of_good C good _ hGne hdne
  obtain ⟨Qx, Qy, hq⟩ : ∃ Qx Qy,
      EC.ptD (bytesToNatBE sk.bytes • EC.Gpt C good) = some (Qx, Qy) := by
    cases hq : EC.ptD (bytesToNatBE sk.bytes • EC.Gpt C good) with
    | none => exact absurd (EC.ptD_eq_none _ hq) hdGne
    | some q =>
      obtain ⟨qx, qy⟩ := q
      exact ⟨qx, qy, rfl⟩
  have hpub : Secp.pubPoint C (bytesToNatBE sk.bytes) = some (Qx, Qy) := by
    rw [Secp.pubPoint, EC.Gpt_mul C good]
    exact hq
  -- the recovery id is in range, so the parsing layers all succeed
  have hrecid01 : sig.recid = (if C.n ≤ xR then 2 else 0) + (if yR % 2 = 1 then 1 else 0) ∨
      sig.recid = ((if C.n ≤ xR then 2 else 0) + (if yR % 2 = 1 then 1 else 0)) ^^^ 1 := by
    rcases hbranch with ⟨-, -, h⟩ | ⟨-, -, h⟩
    · exact Or.inl h
    · exact Or.inr h
  have hrecid3 : sig.recid ≤ 3 := by
    have h01 := hrecid01
    by_cases hov : C.n ≤ xR
    · rw [if_pos hov] at h01
      by_cases hpar : yR % 2 = 1
      · rw [if_pos hpar] at h01
        rcases h01 with h | h <;> rw [h] <;> decide
      · rw [if_neg hpar] at h01
        rcases h01 with h | h <;> rw [h] <;> decide
    · rw [if_neg hov] at h01
      by_cases hpar : yR % 2 = 1
      · rw [if_pos hpar] at h01
        rcases h01 with h | h <;> rw [h] <;> decide
      · rw [if_neg hpar] at h01
        rcases h01 with h | h <;> rw [h] <;> decide
  have hrec : Secp.RecoveryId.fromI32 sig.recid = .ok sig.recid := by
    rw [Secp.RecoveryId.fromI32, if_pos hrecid3]
  have hr256 : sig.r < 256 ^ 32 := by
    rw [pow_256_32]
    have := good.nsz
    omega
  have hs256 : sig.s < 256 ^ 32 := by
    rw [pow_256_32]
    have := good.nsz
    omega
  have hcompact : Secp.Signature.fromCompact C (Secp.serializeCompact sig.r sig.s) =
      .ok (sig.r, sig.s) := by
    rw [Secp.serializeCompact, Secp.Signature.fromCompact]
    rw [if_pos (by simp [natToBytesBE_length])]
    rw [take_natToBytesBE, drop_natToBytesBE, bytesToNatBE_natToBytesBE 32 sig.r hr256,
      bytesToNatBE_natToBytesBE 32 sig.s hs256]
    rw [if_pos ⟨hrlt, hslt⟩]
  have hmsgok : Secp.Message.fromSlice (keccak256 msg) = .ok (keccak256 msg) := by
    simp [Secp.Message.fromSlice, keccak256_length]
  simp only [ElabsCrypto.signer.ecrecover, hrec, hcompact, hmsgok]
  suffices hrc : Secp.recoverCore C (Secp.msgScalar C (keccak256 msg)) sig.r sig.s
      sig.recid = some (Qx, Qy) by
    simp only [hrc]
    rw [hpkbytes, hpub]
  -- bit 1 of the recovery id records the x overflow, so X rebuilds xR
  have hbit1 : (sig.recid / 2 % 2 = 1) ↔ C.n ≤ xR := by
    have h01 := hrecid01
    by_cases hov : C.n ≤ xR
    · rw [if_pos hov] at h01
      by_cases hpar : yR % 2 = 1
      · rw [if_pos hpar] at h01
        rcases h01 with h | h <;> rw [h] <;> exact iff_of_true (by decide) hov
      · rw [if_neg hpar] at h01
        rcases h01 with h | h <;> rw [h] <;> exact iff_of_true (by decide) hov
    · rw [if_neg hov] at h01
      by_cases hpar : yR % 2 = 1
      · rw [if_pos hpar] at h01
        rcases h01 with h | h <;> rw [h] <;> exact iff_of_false (by decide) hov
      · rw [if_neg hpar] at h01
        rcases h01 with h | h <;> rw [h] <;> exact iff_of_false (by decide) hov
  have hX : (if sig.recid / 2 % 2 = 1 then sig.r + C.n else sig.r) = xR := by
    by_cases hov : C.n ≤ xR
    · have h1 : sig.r = xR - C.n := by
        rw [hr, Nat.mod_eq_sub_mod hov,
          Nat.mod_eq_of_lt (by have := good.plt2n; omega)]
      rw [if_pos (hbit1.mpr hov), h1]
      omega
    · rw [if_neg (fun hc => hov (hbit1.mp hc)), hr, Nat.mod_eq_of_lt (by omega)]
  have hRon : yR * yR % C.p = (xR * xR * xR + C.a * xR + C.b) % C.p :=
    EC.ptD_onCurve _ xR yR hkG
  -- the library's square root lands on yR or its negation
  have hy0cases : powMod C.p C.p (yR * yR % C.p) ((C.p + 1) / 4) = yR ∨
      (powMod C.p C.p (yR * yR % C.p) ((C.p + 1) / 4) = negMod C.p yR ∧ 0 < yR ∧
        ((negMod C.p yR % 2 = 1) ↔ ¬ (yR % 2 = 1))) := by
    rcases EC.recover_sqrt C.p hp4 yR hxRp.2 with h | h
    · exact Or.inl h
    · by_cases hz : yR = 0
      · subst hz
        left
        rw [h, negMod, Nat.sub_zero, Nat.mod_self]
      · right
        have hnm : negMod C.p yR = C.p - yR := by
          rw [negMod]
          exact Nat.mod_eq_of_lt (by omega)
        refine ⟨h, Nat.pos_of_ne_zero hz, ?_⟩
        rw [hnm]
        have hylt := hxRp.2
        omega
  have hcheck : powMod C.p C.p (yR * yR % C.p) ((C.p + 1) / 4) *
      powMod C.p C.p (yR * yR % C.p) ((C.p + 1) / 4) % C.p = yR * yR % C.p := by
    rcases hy0cases with h | ⟨h, -, -⟩
    · rw [h]
    · rw [h]
      exact EC.negMod_sq C.p yR (le_of_lt hxRp.2)
  rw [Secp.recoverCore, if_neg (by push_neg; exact ⟨hrne, hsne⟩)]
  dsimp only
  rw [hX, if_neg (Nat.not_le.mpr hxRp.1), ← hRon, if_pos hcheck]
  rcases hbranch with ⟨-, hseq, hrecid⟩ | ⟨hhigh, hseq, hrecid⟩
  · -- low-s branch: bit 0 matches yR's parity and the point is R itself
    have hb0 : (sig.recid % 2 = 1) ↔ (yR % 2 = 1) := by
      rw [hrecid]
      by_cases hov : C.n ≤ xR <;> by_cases hpar : yR % 2 = 1
      · rw [if_pos hov, if_pos hpar]
        exact iff_of_true (by decide) hpar
      · rw [if_pos hov, if_neg hpar]
        exact iff_of_false (by decide) hpar
      · rw [if_neg hov, if_pos hpar]
        exact iff_of_true (by decide) hpar
      · rw [if_neg hov, if_neg hpar]
        exact iff_of_false (by decide) hpar
    have hysel : (if (powMod C.p C.p (yR * yR % C.p) ((C.p + 1) / 4) % 2 = 1) =
        (sig.recid % 2 = 1) then powMod C.p C.p (yR * yR % C.p) ((C.p + 1) / 4)
        else negMod C.p (powMod C.p C.p (yR * yR % C.p) ((C.p + 1) / 4))) = yR := by
      rcases hy0cases with h | ⟨h, -, hpar⟩
      · rw [h, if_pos (propext hb0.symm)]
      · refine Eq.trans ?_ (EC.negMod_negMod C.p yR hxRp.2)
        rw [h]
        refine if_neg (fun hc => ?_)
        have h1 := Iff.of_eq hc
        by_cases hyp : yR % 2 = 1
        · exact hpar.mp (h1.mpr (hb0.mpr hyp)) hyp
        · exact hyp (hb0.mp (h1.mp (hpar.mpr hyp)))
    rw [hysel]
    have hA : ptMul C.p C.a (invMod C.n sig.r * sig.s % C.n) (some (xR, yR)) =
        EC.ptD ((invMod C.n sig.r * sig.s % C.n) • (k • EC.Gpt C good)) := by
      rw [← hkG, EC.ptMul_eq]
    have hB : ptMul C.p C.a (negMod C.n (invMod C.n sig.r *
        Secp.msgScalar C (keccak256 msg) % C.n)) (some (C.gx, C.gy)) =
        EC.ptD ((negMod C.n (invMod C.n sig.r * Secp.msgScalar C (keccak256 msg) % C.n)) •
          EC.Gpt C good) :=
      EC.Gpt_mul C good _
    rw [hA, hB, ← EC.ptD_add,
      ← mul_nsmul (EC.Gpt C good) k (invMod C.n sig.r * sig.s % C.n), ← add_nsmul]
    have hscast : ((sig.s : Nat) : ZMod C.n) = (k : ZMod C.n)⁻¹ *
        ((sig.r * bytesToNatBE sk.bytes + Secp.msgScalar C (keccak256 msg) : Nat) :
          ZMod C.n) := by
      rw [hseq]
      exact hs0cast
    refine Eq.trans (congrArg EC.ptD
      (EC.smul_cast_eq C good _ (bytesToNatBE sk.bytes) ?_)) hq
    rw [Nat.cast_add, EC.negMod_cast _ (le_of_lt (Nat.mod_lt _ hnpos))]
    push_cast [ZMod.natCast_mod]
    rw [EC.invMod_cast sig.r hrcast, hscast]
    push_cast
    field_simp
    ring
  · -- high-s branch: s and the recovered y are both negated, cancelling out
    have hb0 : (sig.recid % 2 = 1) ↔ ¬ (yR % 2 = 1) := by
      rw [hrecid]
      by_cases hov : C.n ≤ xR <;> by_cases hpar : yR % 2 = 1
      · rw [if_pos hov, if_pos hpar]
        exact iff_of_false (by decide) (fun hc => hc hpar)
      · rw [if_pos hov, if_neg hpar]
        exact iff_of_true (by decide) hpar
      · rw [if_neg hov, if_pos hpar]
        exact iff_of_false (by decide) (fun hc => hc hpar)
      · rw [if_neg hov, if_neg hpar]
        exact iff_of_true (by decide) hpar
    have hysel : (if (powMod C.p C.p (yR * yR % C.p) ((C.p + 1) / 4) % 2 = 1) =
        (sig.recid % 2 = 1) then powMod C.p C.p (yR * yR % C.p) ((C.p + 1) / 4)
        else negMod C.p (powMod C.p C.p (yR * yR % C.p) ((C.p + 1) / 4))) =
        negMod C.p yR := by
      rcases hy0cases with h | ⟨h, -, hpar⟩
      · rw [h]
        refine if_neg (fun hc => ?_)
        have h1 := Iff.of_eq hc
        by_cases hyp : yR % 2 = 1
        · exact hb0.mp (h1.mp hyp) hyp
        · exact hyp (h1.mpr (hb0.mpr hyp))
      · rw [h, if_pos (propext (hpar.trans hb0.symm))]
    rw [hysel]
    have hnegR : EC.ptD (-(k • EC.Gpt C good)) = some (xR, negMod C.p yR) :=
      EC.ptD_neg (k • EC.Gpt C good) xR yR hkG
    have hA : ptMul C.p C.a (invMod C.n sig.r * sig.s % C.n) (some (xR, negMod C.p yR)) =
        EC.ptD ((invMod C.n sig.r * sig.s % C.n) • (-(k • EC.Gpt C good))) := by
      rw [← hnegR, EC.ptMul_eq]
    have hB : ptMul C.p C.a (negMod C.n (invMod C.n sig.r *
        Secp.msgScalar C (keccak256 msg) % C.n)) (some (C.gx, C.gy)) =
        EC.ptD ((negMod C.n (invMod C.n sig.r * Secp.msgScalar C (keccak256 msg) % C.n)) •
          EC.Gpt C good) :=
      EC.Gpt_mul C good _
    rw [hA, hB, ← EC.ptD_add, EC.nsmul_neg_eq,
      ← mul_nsmul (EC.Gpt C good) k (invMod C.n sig.r * sig.s % C.n),
      EC.smul_val_cast C good (k * (invMod C.n sig.r * sig.s % C.n)),
      ← EC.smul_neg_val C good (((k * (invMod C.n sig.r * sig.s % C.n) : Nat) : ZMod C.n)),
      ← add_nsmul]
    have hscast : ((sig.s : Nat) : ZMod C.n) = -((k : ZMod C.n)⁻¹ *
        ((sig.r * bytesToNatBE sk.bytes + Secp.msgScalar C (keccak256 msg) : Nat) :
          ZMod C.n)) := by
      rw [hseq, EC.negMod_cast _ (le_of_lt hs0lt), hs0cast]
    refine Eq.trans (congrArg EC.ptD
      (EC.smul_cast_eq C good _ (bytesToNatBE sk.bytes) ?_)) hq
    rw [Nat.cast_add, EC.cast_val, EC.negMod_cast _ (le_of_lt (Nat.mod_lt _ hnpos))]
    push_cast [ZMod.natCast_mod]
    rw [EC.invMod_cast sig.r hrcast, hscast]
    push_cast
    field_simp
    ring

/-! ## A small well-formed curve witnessing the round-trip theorems -/

/-- A toy curve with the same well-formedness properties as secp256k1 (prime
field with `p ≡ 3 (mod 4)`, prime group order `n` with `p < 2n`):
`y² = x³ + 3` over `F₇`, whose group has 13 points, generated by `(1, 2)`. -/
def toyCurve : Secp.Curve :=
  { p := 7, n := 13, a := 0, b := 3, gx := 1, gy := 2 }

/-- The toy curve satisfies every `GoodCurve` hypothesis. -/
theorem toyCurve_good : GoodCurve toyCurve :=
  ⟨by decide, by decide, by decide, by decide, rfl, by decide, by decide,
    by decide, by decide, by decide, by decide⟩

/-- A 32-byte private key holding the scalar 1. -/
def toySk : ElabsCrypto.keys.PrivateKey := ⟨List.replicate 31 0 ++ [1]⟩

/-- The serialized public key derived from `toySk` on the toy curve. -/
def toyPk : ElabsCrypto.keys.PublicKey :=
  ⟨Secp.serializeUncompressed (Secp.pubPoint toyCurve 1)⟩

/-- The recoverable signature `sign` produces on the toy curve for the empty
message with nonce 1. -/
def toySig : ElabsCrypto.signer.RecSig := ⟨1, 4, 1⟩

set_option maxHeartbeats 4000000 in
set_option maxRecDepth 100000 in
/-- Witness for C2 at concrete inputs: on the toy curve, signing the empty
message under the key with scalar 1 and nonce 1 yields `(r, s, recid) =
(1, 4, 1)`, and verifying its compact serialization against the derived
public key returns `Ok(true)`. -/
theorem c2_sign_verify_roundtrip_witness :
    ElabsCrypto.signer.verify toyCurve [] (Secp.serializeCompact toySig.r toySig.s) toyPk =
      some (.ok true) :=
  c2_sign_verify_roundtrip toyCurve toyCurve_good [] toySk 1 toySig toyPk
    (by decide) (by decide)

set_option maxHeartbeats 4000000 in
set_option maxRecDepth 100000 in
/-- Witness for C3 at concrete inputs: on the toy curve (whose prime is
`3 mod 4`), recovering from the Keccak-256 digest of the empty message, the
compact signature produced by `sign`, and its recovery id returns exactly the
serialized public key of the signing key. -/
theorem c3_ecrecover_roundtrip_witness :
    ElabsCrypto.signer.ecrecover toyCurve (Elabs.keccak256 [])
      (Secp.serializeCompact toySig.r toySig.s) toySig.recid = .ok toyPk.bytes :=
  c3_ecrecover_roundtrip toyCurve toyCurve_good (by decide) [] toySk 1 toySig toyPk
    (by decide) (by decide)
